import Mathlib

/-!
# Verification of `naming` (name splitting and naming conventions)

Shallow embedding of `naming.go`: the definitions come first, then the theorems.

Modelling conventions.

* A Go `rune` is an `Int` (`int32` code point; the source passes `-1` to `finishWord`).
* A Go string is modelled by the sequence of runes that `for _, r := range s` yields over it
  (a byte that is not part of a valid UTF-8 sequence is seen as U+FFFD, as `range` does).
  `strings.Builder` contents and the returned words are modelled in the same way.
* Sizes and slice bounds are byte offsets into the UTF-8 encoding, as in the source: a rune
  `r` occupies `RuneLen r` bytes, `byteLen` is the builtin `len`, and `sliceTo`, `sliceFrom`
  are the slices `s[:n]`, `s[n:]`.  A slice bound that falls inside the encoding of a rune
  leaves stray bytes, which `range` sees as U+FFFD each.
* The tables of the Go standard library package `unicode` (`IsLetter`, `IsDigit`, `IsUpper`,
  `IsLower`, `IsTitle`) are not part of the repository; they are taken as a parameter
  `UnicodeTables`, and the facts about them that the proofs use are collected in
  `UnicodeTables.Lawful`.  The case mappings (`unicode.ToUpper`, `unicode.ToLower`,
  `unicode.ToTitle`) are the parameter `CaseTables`; `strings.ToUpper` and `strings.ToLower`
  are `strings.Map` of them.
-/

namespace Naming

/-- A Go rune: an `int32` code point. -/
abbrev Rune := Int

/-- The replacement character `utf8.RuneError` (U+FFFD). -/
def RuneError : Rune := 0xFFFD

/-- Valid Unicode scalar values: the runes that `utf8` encodes as themselves
(`0..0x10FFFF` without the surrogate range `0xD800..0xDFFF`). -/
def ValidRune (r : Int) : Bool :=
  (decide (0 ≤ r) && decide (r < 0xD800)) || (decide (0xDFFF < r) && decide (r ≤ 0x10FFFF))

/-- The classification predicates of Go's `unicode` package that `naming.go` calls. -/
structure UnicodeTables where
  /-- The predicate `unicode.IsLetter` (category L). -/
  IsLetter : Rune → Bool
  /-- The predicate `unicode.IsDigit` (category Nd). -/
  IsDigit : Rune → Bool
  /-- The predicate `unicode.IsUpper` (category Lu). -/
  IsUpper : Rune → Bool
  /-- The predicate `unicode.IsLower` (category Ll). -/
  IsLower : Rune → Bool
  /-- The predicate `unicode.IsTitle` (category Lt). -/
  IsTitle : Rune → Bool

/-- Facts about Go's `unicode` tables: `Lu`, `Ll` and `Lt` are pairwise disjoint
sub-categories of `L`, the category `Nd` is disjoint from `L`, and only valid code points
are classified as letters or digits. -/
structure UnicodeTables.Lawful (U : UnicodeTables) : Prop where
  upper_letter : ∀ r, U.IsUpper r = true → U.IsLetter r = true
  lower_letter : ∀ r, U.IsLower r = true → U.IsLetter r = true
  title_letter : ∀ r, U.IsTitle r = true → U.IsLetter r = true
  upper_not_lower : ∀ r, U.IsUpper r = true → U.IsLower r = false
  upper_not_title : ∀ r, U.IsUpper r = true → U.IsTitle r = false
  lower_not_title : ∀ r, U.IsLower r = true → U.IsTitle r = false
  digit_not_letter : ∀ r, U.IsDigit r = true → U.IsLetter r = false
  letter_valid : ∀ r, U.IsLetter r = true → ValidRune r = true
  digit_valid : ∀ r, U.IsDigit r = true → ValidRune r = true

/-- A fragment of Go's `unicode` tables, used for concrete examples: exact on ASCII and on the
code points U+00E1 `á` (Ll), U+01F1 `Ǳ` (Lu), U+01F2 `ǲ` (Lt), U+01F3 `ǳ` (Ll) and
U+4E2D `中` (Lo, a letter without case); every other code point is classified as neither
letter nor digit. -/
def sampleTables : UnicodeTables where
  IsUpper := fun (r : Int) => (decide (65 ≤ r) && decide (r ≤ 90)) || decide (r = 0x1F1)
  IsLower := fun (r : Int) => (decide (97 ≤ r) && decide (r ≤ 122)) || decide (r = 0xE1) || decide (r = 0x1F3)
  IsTitle := fun (r : Int) => decide (r = 0x1F2)
  IsDigit := fun (r : Int) => decide (48 ≤ r) && decide (r ≤ 57)
  IsLetter := fun (r : Int) => (decide (65 ≤ r) && decide (r ≤ 90)) || (decide (97 ≤ r) && decide (r ≤ 122))
    || decide (r = 0xE1) || decide (r = 0x1F1) || decide (r = 0x1F2) || decide (r = 0x1F3)
    || decide (r = 0x4E2D)

/-- The rune sequence of a string literal. -/
def runes (s : String) : List Rune := s.toList.map (fun c => Int.ofNat c.toNat)

/-- The modes of the splitter (`splitMode` and its four constants). -/
inductive splitMode where
  | boundSplitMode
  | wordStartSplitMode
  | wordSplitMode
  | acronymSplitMode
  deriving DecidableEq

open splitMode

/-- The struct `splitState`: mode, finished words and the builder `curWord`.
`words = []` models the nil slice. -/
structure splitState where
  mode : splitMode
  words : List (List Rune)
  curWord : List Rune

/-- The zero value `new(splitState)`. -/
def newSplitState : splitState := ⟨boundSplitMode, [], []⟩

/-- The method `strings.Builder.WriteRune`: appends `r`, or U+FFFD when `r` is not a valid
code point. -/
def WriteRune (b : List Rune) (r : Rune) : List Rune :=
  b ++ [if ValidRune r then r else RuneError]

/-- The width in bytes of the UTF-8 encoding of a rune (`utf8.RuneLen` on valid runes). -/
def RuneLen (r : Int) : Nat :=
  if r < 0x80 then 1 else if r < 0x800 then 2 else if r < 0x10000 then 3 else 4

/-- The builtin `len` of a string: the number of bytes of its encoding. -/
def byteLen (s : List Rune) : Nat := (s.map RuneLen).sum

/-- The slice `s[:n]`, for a byte offset `n`.  When `n` falls inside the encoding of a rune,
the `n` bytes that are left of it are seen as U+FFFD each. -/
def sliceTo : List Rune → Nat → List Rune
  | [], _ => []
  | r :: rest, n =>
    if RuneLen r ≤ n then r :: sliceTo rest (n - RuneLen r) else List.replicate n RuneError

/-- The slice `s[n:]`, for a byte offset `n`.  When `n` falls inside the encoding of a rune,
the bytes that are left of it are seen as U+FFFD each. -/
def sliceFrom : List Rune → Nat → List Rune
  | [], _ => []
  | r :: rest, n =>
    if n = 0 then r :: rest
    else if RuneLen r ≤ n then sliceFrom rest (n - RuneLen r)
    else List.replicate (RuneLen r - n) RuneError ++ rest

/-- The function `utf8.DecodeRuneInString`: first rune and its width in bytes;
`(RuneError, 0)` on the empty string.  The width is that of the encoding of the rune, so the
model is exact for strings that are valid UTF-8 (for a stray byte Go reports width 1). -/
def DecodeRuneInString (s : List Rune) : Rune × Nat :=
  match s with
  | [] => (RuneError, 0)
  | r :: _ => (r, RuneLen r)

/-- The function `utf8.DecodeLastRuneInString`: last rune and its width in bytes;
`(RuneError, 0)` on the empty string. -/
def DecodeLastRuneInString (s : List Rune) : Rune × Nat :=
  match s.getLast? with
  | none => (RuneError, 0)
  | some r => (r, RuneLen r)

/-- The method `splitState.addWord`: appends `word` and resets the builder, but only when the
builder is non-empty. -/
def addWord (s : splitState) (word : List Rune) : splitState :=
  if 0 < s.curWord.length then { s with words := s.words ++ [word], curWord := [] } else s

/-- The method `splitState.startWord`. -/
def startWord (U : UnicodeTables) (s : splitState) (r : Rune) : splitState :=
  let s := { s with curWord := WriteRune s.curWord r }
  if U.IsUpper r then { s with mode := wordStartSplitMode }
  else { s with mode := wordSplitMode }

/-- The method `splitState.writeWordRune`. -/
def writeWordRune (U : UnicodeTables) (s : splitState) (r : Rune) : splitState :=
  let s := { s with curWord := WriteRune s.curWord r }
  if U.IsUpper r then { s with mode := acronymSplitMode }
  else { s with mode := wordSplitMode }

/-- The method `splitState.finishWord`. -/
def finishWord (U : UnicodeTables) (s : splitState) (r : Rune) : splitState :=
  if U.IsUpper r then
    let s := addWord s s.curWord
    { s with curWord := WriteRune s.curWord r, mode := wordStartSplitMode }
  else if U.IsLower r then
    let word := s.curWord
    let last := DecodeLastRuneInString word
    let s := addWord s (sliceTo word (byteLen word - last.2))
    let s := { s with curWord := WriteRune s.curWord last.1 }
    { s with curWord := WriteRune s.curWord r, mode := wordSplitMode }
  else if U.IsTitle r then
    let s := addWord s s.curWord
    { s with curWord := WriteRune s.curWord r, mode := wordSplitMode }
  else
    let s := addWord s s.curWord
    { s with mode := boundSplitMode }

/-- The body of the `for _, r := range name` loop of `splitState.splitName`. -/
def splitStep (U : UnicodeTables) (s : splitState) (r : Rune) : splitState :=
  match s.mode with
  | boundSplitMode =>
    if U.IsLetter r || U.IsDigit r then startWord U s r else s
  | wordStartSplitMode =>
    if U.IsUpper r || U.IsLower r || U.IsDigit r then writeWordRune U s r
    else finishWord U s r
  | wordSplitMode =>
    if U.IsLower r || U.IsDigit r then writeWordRune U s r else finishWord U s r
  | acronymSplitMode =>
    if U.IsUpper r || U.IsDigit r then writeWordRune U s r else finishWord U s r

/-- The state after the loop of `splitState.splitName` has consumed `name`. -/
def splitLoop (U : UnicodeTables) (s : splitState) (name : List Rune) : splitState :=
  name.foldl (splitStep U) s

/-- The method `splitState.splitName`: the loop, then `finishWord(-1)`, then `s.words`. -/
def splitName (U : UnicodeTables) (s : splitState) (name : List Rune) : List (List Rune) :=
  (finishWord U (splitLoop U s name) (-1)).words

/-- The function `SplitName`. -/
def SplitName (U : UnicodeTables) (name : List Rune) : List (List Rune) :=
  if name = [] then [[]]
  else if name.length = 1 then
    let firstRune := (DecodeRuneInString name).1
    if U.IsLetter firstRune || U.IsDigit firstRune then [name] else [[]]
  else
    let words := splitName U newSplitState name
    if words = [] then [[]] else words

/-- The function `CreateNaming`, applied to `name`.  Output strings are lists over an
arbitrary alphabet `α`; `none` models the run-time panic of `words[0]` on an empty slice. -/
def CreateNaming {α : Type} (U : UnicodeTables) (mapFirst mapRest : List Rune → List α)
    (sep : List α) (name : List Rune) : Option (List α) :=
  match SplitName U name with
  | [] => none
  | w0 :: rest =>
    some (rest.foldl (fun b word => (b ++ sep) ++ mapRest word) (mapFirst w0))

/-- The word runes of a string: the subsequence of its letters and digits, in order. -/
def wordRunes (U : UnicodeTables) (name : List Rune) : List Rune :=
  name.filter (fun r => U.IsLetter r || U.IsDigit r)

/-! ## Case mappings, `ToTitle` and the presets -/

/-- The case mappings of Go's `unicode` package (`unicode.ToUpper`, `unicode.ToLower`,
`unicode.ToTitle`), which `naming.go` uses directly or through `strings.ToUpper` and
`strings.ToLower`.  They are not part of the repository and are taken as a parameter. -/
structure CaseTables where
  /-- The function `unicode.ToUpper`. -/
  ToUpper : Int → Int
  /-- The function `unicode.ToLower`. -/
  ToLower : Int → Int
  /-- The function `unicode.ToTitle`. -/
  ToTitle : Int → Int

/-- Facts about Go's case mappings: a valid code point is mapped to a valid code point. -/
structure CaseTables.Lawful (C : CaseTables) : Prop where
  upper_valid : ∀ r, ValidRune r = true → ValidRune (C.ToUpper r) = true
  lower_valid : ∀ r, ValidRune r = true → ValidRune (C.ToLower r) = true
  title_valid : ∀ r, ValidRune r = true → ValidRune (C.ToTitle r) = true

/-- The case mappings of Go's `unicode` package on the ASCII range. -/
structure CaseTables.ASCII (C : CaseTables) : Prop where
  upper : ∀ r : Int, 0 ≤ r → r < 128 →
    C.ToUpper r = if 97 ≤ r ∧ r ≤ 122 then r - 32 else r
  lower : ∀ r : Int, 0 ≤ r → r < 128 →
    C.ToLower r = if 65 ≤ r ∧ r ≤ 90 then r + 32 else r
  title : ∀ r : Int, 0 ≤ r → r < 128 →
    C.ToTitle r = if 97 ≤ r ∧ r ≤ 122 then r - 32 else r

/-- A fragment of Go's case mappings, used for concrete examples: exact on ASCII and on the
digraph letters U+01F1 `Ǳ`, U+01F2 `ǲ`, U+01F3 `ǳ`; every other code point (in particular
U+FFFD) is mapped to itself. -/
def sampleCase : CaseTables where
  ToUpper := fun (r : Int) =>
    if 97 ≤ r ∧ r ≤ 122 then r - 32 else if r = 0x1F2 ∨ r = 0x1F3 then 0x1F1 else r
  ToLower := fun (r : Int) =>
    if 65 ≤ r ∧ r ≤ 90 then r + 32 else if r = 0x1F1 ∨ r = 0x1F2 then 0x1F3 else r
  ToTitle := fun (r : Int) =>
    if 97 ≤ r ∧ r ≤ 122 then r - 32 else if r = 0x1F1 ∨ r = 0x1F3 then 0x1F2 else r

/-- The function `strings.Map`: every rune of `s` is replaced by its image under `mapping`;
a rune with a negative image is dropped. -/
def stringsMap (mapping : Rune → Rune) (s : List Rune) : List Rune :=
  s.foldl (fun b c => if 0 ≤ mapping c then WriteRune b (mapping c) else b) []

/-- The function `strings.ToLower`, that is `strings.Map(unicode.ToLower, s)`. -/
def stringsToLower (C : CaseTables) (s : List Rune) : List Rune :=
  stringsMap C.ToLower s

/-- The function `strings.ToUpper`, that is `strings.Map(unicode.ToUpper, s)`. -/
def stringsToUpper (C : CaseTables) (s : List Rune) : List Rune :=
  stringsMap C.ToUpper s

/-- The function `ToTitle`. -/
def ToTitle (C : CaseTables) (word : List Rune) : List Rune :=
  let first := DecodeRuneInString word
  let b := WriteRune [] (C.ToTitle first.1)
  b ++ stringsToLower C (sliceFrom word first.2)

/-- The preset `Flat`. -/
def Flat (U : UnicodeTables) (C : CaseTables) (name : List Rune) : Option (List Rune) :=
  CreateNaming U (stringsToLower C) (stringsToLower C) [] name

/-- The preset `Upper`. -/
def Upper (U : UnicodeTables) (C : CaseTables) (name : List Rune) : Option (List Rune) :=
  CreateNaming U (stringsToUpper C) (stringsToUpper C) [] name

/-- The preset `Mixed`. -/
def Mixed (U : UnicodeTables) (C : CaseTables) (name : List Rune) : Option (List Rune) :=
  CreateNaming U (stringsToLower C) (ToTitle C) [] name

/-- The preset `UpperMixed`. -/
def UpperMixed (U : UnicodeTables) (C : CaseTables) (name : List Rune) :
    Option (List Rune) :=
  CreateNaming U (ToTitle C) (ToTitle C) [] name

/-- The preset `Snake`. -/
def Snake (U : UnicodeTables) (C : CaseTables) (name : List Rune) : Option (List Rune) :=
  CreateNaming U (stringsToLower C) (stringsToLower C) (runes "_") name

/-- The preset `UpperSnake`. -/
def UpperSnake (U : UnicodeTables) (C : CaseTables) (name : List Rune) :
    Option (List Rune) :=
  CreateNaming U (stringsToUpper C) (stringsToUpper C) (runes "_") name

/-- The preset `Kebab`. -/
def Kebab (U : UnicodeTables) (C : CaseTables) (name : List Rune) : Option (List Rune) :=
  CreateNaming U (stringsToLower C) (stringsToLower C) (runes "-") name

/-! ## Predicates used in the statements and proofs -/

/-- Two tables classify the rune `r` in the same way. -/
def agreeAt (U V : UnicodeTables) (r : Rune) : Prop :=
  U.IsLetter r = V.IsLetter r ∧ U.IsDigit r = V.IsDigit r ∧ U.IsUpper r = V.IsUpper r
    ∧ U.IsLower r = V.IsLower r ∧ U.IsTitle r = V.IsTitle r

/-- The classification of the ASCII range by Go's `unicode` package: `A`..`Z` are upper,
`a`..`z` are lower, `0`..`9` are digits, and there is no title-case letter. -/
structure UnicodeTables.ASCII (U : UnicodeTables) : Prop where
  upper : ∀ r : Int, 0 ≤ r → r < 128 → U.IsUpper r = (decide (65 ≤ r) && decide (r ≤ 90))
  lower : ∀ r : Int, 0 ≤ r → r < 128 → U.IsLower r = (decide (97 ≤ r) && decide (r ≤ 122))
  title : ∀ r : Int, 0 ≤ r → r < 128 → U.IsTitle r = false
  digit : ∀ r : Int, 0 ≤ r → r < 128 → U.IsDigit r = (decide (48 ≤ r) && decide (r ≤ 57))
  letter : ∀ r : Int, 0 ≤ r → r < 128 →
    U.IsLetter r = ((decide (65 ≤ r) && decide (r ≤ 90)) || (decide (97 ≤ r) && decide (r ≤ 122)))

/-- All runes of a string are letters or digits. -/
def runesOk (U : UnicodeTables) (c : List Rune) : Prop :=
  ∀ r ∈ c, U.IsLetter r = true ∨ U.IsDigit r = true

/-- All words are non-empty and consist of letters and digits. -/
def wordsOk (U : UnicodeTables) (ws : List (List Rune)) : Prop :=
  ∀ w ∈ ws, w ≠ [] ∧ runesOk U w

/-- The invariant of the loop of `splitState.splitName`: what the buffer holds in each mode,
and that finished words and the buffer consist of letters and digits. -/
structure splitInv (U : UnicodeTables) (s : splitState) : Prop where
  bound_empty : s.mode = boundSplitMode → s.curWord = []
  nonempty : s.mode ≠ boundSplitMode → s.curWord ≠ []
  wordStart_one : s.mode = wordStartSplitMode → ∃ u, s.curWord = [u] ∧ U.IsUpper u = true
  acronym_two : s.mode = acronymSplitMode →
    ∃ p u v, s.curWord = p ++ [u, v] ∧ U.IsUpper u = true ∧ U.IsUpper v = true
  words_ok : wordsOk U s.words
  cur_ok : runesOk U s.curWord

/-- A state has started when a word has been finished or the buffer is non-empty. -/
def started (s : splitState) : Prop := s.words ≠ [] ∨ s.curWord ≠ []

/-- The states that the loop of `splitState.splitName` reaches: `s` is the state after some
prefix `pre` of some input has been processed. -/
def reachable (U : UnicodeTables) (s : splitState) : Prop :=
  ∃ pre : List Rune, s = splitLoop U newSplitState pre

/-- The runes held by a state: the finished words, followed by the buffer. -/
def content (s : splitState) : List Rune := s.words.flatten ++ s.curWord

/-- Whether the loop keeps the rune `r` that arrives in mode `m`: `r` is a letter or a digit,
and it is not a letter without case that arrives while a word is being accumulated (in a
mode other than Boundary). -/
def kept (U : UnicodeTables) (m : splitMode) (r : Rune) : Bool :=
  (U.IsLetter r || U.IsDigit r)
    && (decide (m = boundSplitMode) || U.IsUpper r || U.IsLower r || U.IsTitle r
      || U.IsDigit r)

/-- The runes of `name` that the loop keeps when it starts in state `s`. -/
def keptRunes (U : UnicodeTables) : splitState → List Rune → List Rune
  | _, [] => []
  | s, r :: rest => (if kept U s.mode r then [r] else []) ++ keptRunes U (splitStep U s r) rest

/-- The invariant of the loop about title-case letters, after the prefix `pre` has been
processed: no finished word and no buffer has a title-case letter after its first rune, and
every title-case letter of `pre` is the first rune of a finished word or of the buffer. -/
structure titleInv (U : UnicodeTables) (pre : List Rune) (s : splitState) : Prop where
  tails : ∀ w ∈ s.words ++ [s.curWord], ∀ r ∈ w.tail, U.IsTitle r = false
  heads : ∀ r ∈ pre, U.IsTitle r = true → ∃ w ∈ s.words ++ [s.curWord], w.head? = some r

/-- The function `strings.Join`: the elements, with `sep` between consecutive elements. -/
def stringsJoin : List (List Rune) → List Rune → List Rune
  | [], _ => []
  | [w], _ => w
  | w :: w1 :: rest, sep => w ++ sep ++ stringsJoin (w1 :: rest) sep

/-- A word is stable when the loop, started afresh on it, keeps all of it in the buffer and
finishes no word. -/
def stableWord (U : UnicodeTables) (w : List Rune) : Prop :=
  w ≠ [] ∧ ∃ m, m ≠ boundSplitMode ∧ splitLoop U newSplitState w = ⟨m, [], w⟩

/-- The invariant of the loop about replaying: every finished word is stable, the loop
started afresh on the buffer arrives at the current mode with the same buffer, and in mode
Acronym the buffer consists of uppercase letters. -/
structure replayInv (U : UnicodeTables) (s : splitState) : Prop where
  words : ∀ w ∈ s.words, stableWord U w
  cur : s.curWord ≠ [] → splitLoop U newSplitState s.curWord = ⟨s.mode, [], s.curWord⟩
  acronym : s.mode = acronymSplitMode → ∀ x ∈ s.curWord, U.IsUpper x = true

/-- A string that consists of ASCII characters only. -/
def isASCII (s : List Rune) : Prop := ∀ r : Int, r ∈ s → 0 ≤ r ∧ r < 128

/-! ## Facts about the tables -/

theorem sampleTables_lawful : sampleTables.Lawful := by
  constructor <;> intro (r : Int) hr <;> simp only [sampleTables, ValidRune, Bool.or_eq_true,
    Bool.and_eq_true, decide_eq_true_eq, Bool.or_eq_false_iff, Bool.and_eq_false_iff,
    decide_eq_false_iff_not] at hr ⊢ <;> omega

theorem UnicodeTables.Lawful.upper_valid {U : UnicodeTables} (h : U.Lawful) {r : Rune}
    (hr : U.IsUpper r = true) : ValidRune r = true :=
  h.letter_valid r (h.upper_letter r hr)

theorem UnicodeTables.Lawful.lower_valid {U : UnicodeTables} (h : U.Lawful) {r : Rune}
    (hr : U.IsLower r = true) : ValidRune r = true :=
  h.letter_valid r (h.lower_letter r hr)

theorem UnicodeTables.Lawful.title_valid {U : UnicodeTables} (h : U.Lawful) {r : Rune}
    (hr : U.IsTitle r = true) : ValidRune r = true :=
  h.letter_valid r (h.title_letter r hr)

theorem UnicodeTables.Lawful.not_upper_of_not_letter {U : UnicodeTables} (h : U.Lawful)
    {r : Rune} (hr : U.IsLetter r = false) : U.IsUpper r = false := by
  cases hu : U.IsUpper r
  · rfl
  · rw [h.upper_letter r hu] at hr; cases hr

theorem UnicodeTables.Lawful.not_lower_of_not_letter {U : UnicodeTables} (h : U.Lawful)
    {r : Rune} (hr : U.IsLetter r = false) : U.IsLower r = false := by
  cases hu : U.IsLower r
  · rfl
  · rw [h.lower_letter r hu] at hr; cases hr

theorem UnicodeTables.Lawful.not_title_of_not_letter {U : UnicodeTables} (h : U.Lawful)
    {r : Rune} (hr : U.IsLetter r = false) : U.IsTitle r = false := by
  cases hu : U.IsTitle r
  · rfl
  · rw [h.title_letter r hu] at hr; cases hr

theorem UnicodeTables.Lawful.lower_not_upper {U : UnicodeTables} (h : U.Lawful)
    {r : Rune} (hr : U.IsLower r = true) : U.IsUpper r = false := by
  cases hu : U.IsUpper r
  · rfl
  · rw [h.upper_not_lower r hu] at hr; cases hr

theorem UnicodeTables.Lawful.digit_not_upper {U : UnicodeTables} (h : U.Lawful)
    {r : Rune} (hr : U.IsDigit r = true) : U.IsUpper r = false :=
  h.not_upper_of_not_letter (h.digit_not_letter r hr)

theorem UnicodeTables.Lawful.digit_not_lower {U : UnicodeTables} (h : U.Lawful)
    {r : Rune} (hr : U.IsDigit r = true) : U.IsLower r = false :=
  h.not_lower_of_not_letter (h.digit_not_letter r hr)

theorem UnicodeTables.Lawful.upper_not_digit {U : UnicodeTables} (h : U.Lawful)
    {r : Rune} (hr : U.IsUpper r = true) : U.IsDigit r = false := by
  cases hd : U.IsDigit r
  · rfl
  · rw [h.digit_not_upper hd] at hr; cases hr

theorem UnicodeTables.Lawful.lower_not_digit {U : UnicodeTables} (h : U.Lawful)
    {r : Rune} (hr : U.IsLower r = true) : U.IsDigit r = false := by
  cases hd : U.IsDigit r
  · rfl
  · rw [h.digit_not_lower hd] at hr; cases hr

theorem UnicodeTables.Lawful.letter_neg_one {U : UnicodeTables} (h : U.Lawful) :
    U.IsLetter (-1) = false := by
  cases hl : U.IsLetter (-1)
  · rfl
  · have := h.letter_valid _ hl
    simp [ValidRune] at this

theorem WriteRune_valid (b : List Rune) {r : Rune} (hr : ValidRune r = true) :
    WriteRune b r = b ++ [r] := by
  simp [WriteRune, hr]

/-! ## Single steps of the loop -/

theorem splitLoop_nil (U : UnicodeTables) (s : splitState) : splitLoop U s [] = s := rfl

theorem splitLoop_cons (U : UnicodeTables) (s : splitState) (r : Rune) (l : List Rune) :
    splitLoop U s (r :: l) = splitLoop U (splitStep U s r) l := rfl

theorem splitLoop_append (U : UnicodeTables) (s : splitState) (a b : List Rune) :
    splitLoop U s (a ++ b) = splitLoop U (splitLoop U s a) b := by
  simp [splitLoop, List.foldl_append]

theorem addWord_of_ne_nil (m : splitMode) (ws : List (List Rune)) {c : List Rune}
    (hc : c ≠ []) (w : List Rune) : addWord ⟨m, ws, c⟩ w = ⟨m, ws ++ [w], []⟩ := by
  have : 0 < c.length := List.length_pos.mpr hc
  simp [addWord, this]

theorem addWord_nil (m : splitMode) (ws : List (List Rune)) (w : List Rune) :
    addWord ⟨m, ws, []⟩ w = ⟨m, ws, []⟩ := by
  simp [addWord]

theorem splitStep_bound_other (U : UnicodeTables) (ws : List (List Rune)) (c : List Rune)
    {r : Rune} (hl : U.IsLetter r = false) (hd : U.IsDigit r = false) :
    splitStep U ⟨boundSplitMode, ws, c⟩ r = ⟨boundSplitMode, ws, c⟩ := by
  simp [splitStep, hl, hd]

theorem splitStep_bound_upper {U : UnicodeTables} (h : U.Lawful) (ws : List (List Rune))
    (c : List Rune) {r : Rune} (hr : U.IsUpper r = true) :
    splitStep U ⟨boundSplitMode, ws, c⟩ r = ⟨wordStartSplitMode, ws, c ++ [r]⟩ := by
  simp [splitStep, startWord, hr, h.upper_letter r hr, WriteRune_valid _ (h.upper_valid hr)]

theorem splitStep_bound_lower_digit {U : UnicodeTables} (h : U.Lawful) (ws : List (List Rune))
    (c : List Rune) {r : Rune} (hr : U.IsLower r = true ∨ U.IsDigit r = true) :
    splitStep U ⟨boundSplitMode, ws, c⟩ r = ⟨wordSplitMode, ws, c ++ [r]⟩ := by
  rcases hr with hr | hr
  · simp [splitStep, startWord, h.lower_letter r hr, h.lower_not_upper hr,
      WriteRune_valid _ (h.lower_valid hr)]
  · simp [splitStep, startWord, hr, h.digit_not_upper hr, WriteRune_valid _ (h.digit_valid r hr)]

theorem splitStep_wordStart_upper {U : UnicodeTables} (h : U.Lawful) (ws : List (List Rune))
    (c : List Rune) {r : Rune} (hr : U.IsUpper r = true) :
    splitStep U ⟨wordStartSplitMode, ws, c⟩ r = ⟨acronymSplitMode, ws, c ++ [r]⟩ := by
  simp [splitStep, writeWordRune, hr, WriteRune_valid _ (h.upper_valid hr)]

theorem splitStep_wordStart_lower_digit {U : UnicodeTables} (h : U.Lawful)
    (ws : List (List Rune)) (c : List Rune) {r : Rune}
    (hr : U.IsLower r = true ∨ U.IsDigit r = true) :
    splitStep U ⟨wordStartSplitMode, ws, c⟩ r = ⟨wordSplitMode, ws, c ++ [r]⟩ := by
  rcases hr with hr | hr
  · simp [splitStep, writeWordRune, hr, h.lower_not_upper hr,
      WriteRune_valid _ (h.lower_valid hr)]
  · simp [splitStep, writeWordRune, hr, h.digit_not_upper hr,
      WriteRune_valid _ (h.digit_valid r hr)]

theorem splitStep_word_lower_digit {U : UnicodeTables} (h : U.Lawful) (ws : List (List Rune))
    (c : List Rune) {r : Rune} (hr : U.IsLower r = true ∨ U.IsDigit r = true) :
    splitStep U ⟨wordSplitMode, ws, c⟩ r = ⟨wordSplitMode, ws, c ++ [r]⟩ := by
  rcases hr with hr | hr
  · simp [splitStep, writeWordRune, hr, h.lower_not_upper hr,
      WriteRune_valid _ (h.lower_valid hr)]
  · simp [splitStep, writeWordRune, hr, h.digit_not_upper hr,
      WriteRune_valid _ (h.digit_valid r hr)]

theorem splitStep_word_upper {U : UnicodeTables} (h : U.Lawful) (ws : List (List Rune))
    {c : List Rune} (hc : c ≠ []) {r : Rune} (hr : U.IsUpper r = true) :
    splitStep U ⟨wordSplitMode, ws, c⟩ r = ⟨wordStartSplitMode, ws ++ [c], [r]⟩ := by
  simp [splitStep, finishWord, hr, h.upper_not_lower r hr, h.upper_not_digit hr,
    addWord_of_ne_nil _ _ hc, WriteRune_valid _ (h.upper_valid hr)]

theorem splitStep_acronym_upper {U : UnicodeTables} (h : U.Lawful) (ws : List (List Rune))
    (c : List Rune) {r : Rune} (hr : U.IsUpper r = true) :
    splitStep U ⟨acronymSplitMode, ws, c⟩ r = ⟨acronymSplitMode, ws, c ++ [r]⟩ := by
  simp [splitStep, writeWordRune, hr, WriteRune_valid _ (h.upper_valid hr)]

theorem splitStep_acronym_digit {U : UnicodeTables} (h : U.Lawful) (ws : List (List Rune))
    (c : List Rune) {r : Rune} (hr : U.IsDigit r = true) :
    splitStep U ⟨acronymSplitMode, ws, c⟩ r = ⟨wordSplitMode, ws, c ++ [r]⟩ := by
  simp [splitStep, writeWordRune, hr, h.digit_not_upper hr,
    WriteRune_valid _ (h.digit_valid r hr)]

theorem RuneLen_pos (r : Int) : 0 < RuneLen r := by
  unfold RuneLen
  split_ifs <;> decide

theorem byteLen_append (a b : List Rune) : byteLen (a ++ b) = byteLen a + byteLen b := by
  simp [byteLen]

theorem sliceTo_append (p l : List Rune) : sliceTo (p ++ l) (byteLen p) = p ++ sliceTo l 0 := by
  induction p with
  | nil => simp [byteLen]
  | cons r p ih =>
    have hlen : byteLen (r :: p) = RuneLen r + byteLen p := by simp [byteLen]
    simp [sliceTo, hlen, ih]

/-- Cutting the width of the last rune off the end of a string removes exactly that rune. -/
theorem sliceTo_dropLast (p : List Rune) (v : Rune) :
    sliceTo (p ++ [v]) (byteLen (p ++ [v]) - RuneLen v) = p := by
  have hpos := RuneLen_pos v
  have hlen : byteLen (p ++ [v]) - RuneLen v = byteLen p := by
    rw [byteLen_append]; simp [byteLen]
  rw [hlen, sliceTo_append]
  have : ¬ RuneLen v ≤ 0 := by omega
  simp [sliceTo, this]

theorem splitStep_acronym_lower {U : UnicodeTables} (h : U.Lawful) (ws : List (List Rune))
    (p : List Rune) {u r : Rune} (hu : ValidRune u = true) (hr : U.IsLower r = true) :
    splitStep U ⟨acronymSplitMode, ws, p ++ [u]⟩ r = ⟨wordSplitMode, ws ++ [p], [u, r]⟩ := by
  have hne : p ++ [u] ≠ [] := by simp
  simp [splitStep, finishWord, hr, h.lower_not_upper hr, h.lower_not_digit hr,
    DecodeLastRuneInString, addWord_of_ne_nil _ _ hne, WriteRune_valid _ (h.lower_valid hr),
    WriteRune_valid _ hu, sliceTo_dropLast]

theorem finishWord_other {U : UnicodeTables} (h : U.Lawful) (m : splitMode)
    (ws : List (List Rune)) {c : List Rune} (hc : c ≠ []) {r : Rune}
    (hr : U.IsLetter r = false) :
    finishWord U ⟨m, ws, c⟩ r = ⟨boundSplitMode, ws ++ [c], []⟩ := by
  simp [finishWord, h.not_upper_of_not_letter hr, h.not_lower_of_not_letter hr,
    h.not_title_of_not_letter hr, addWord_of_ne_nil _ _ hc]

theorem finishWord_other_nil {U : UnicodeTables} (h : U.Lawful) (m : splitMode)
    (ws : List (List Rune)) {r : Rune} (hr : U.IsLetter r = false) :
    finishWord U ⟨m, ws, []⟩ r = ⟨boundSplitMode, ws, []⟩ := by
  simp [finishWord, h.not_upper_of_not_letter hr, h.not_lower_of_not_letter hr,
    h.not_title_of_not_letter hr, addWord_nil]

theorem splitStep_word_other {U : UnicodeTables} (h : U.Lawful) (ws : List (List Rune))
    {c : List Rune} (hc : c ≠ []) {r : Rune} (hl : U.IsLetter r = false)
    (hd : U.IsDigit r = false) :
    splitStep U ⟨wordSplitMode, ws, c⟩ r = ⟨boundSplitMode, ws ++ [c], []⟩ := by
  simp [splitStep, h.not_lower_of_not_letter hl, hd, finishWord_other h _ _ hc hl]

/-! ## The loop on runs of one kind -/

theorem splitLoop_bound (U : UnicodeTables) (ws : List (List Rune)) (c d : List Rune)
    (hd : ∀ r ∈ d, U.IsLetter r = false ∧ U.IsDigit r = false) :
    splitLoop U ⟨boundSplitMode, ws, c⟩ d = ⟨boundSplitMode, ws, c⟩ := by
  induction d with
  | nil => rfl
  | cons r d ih =>
    have hr := hd r (List.mem_cons_self _ _)
    rw [splitLoop_cons, splitStep_bound_other U ws c hr.1 hr.2]
    exact ih (fun x hx => hd x (List.mem_cons_of_mem _ hx))

theorem splitLoop_word {U : UnicodeTables} (h : U.Lawful) (ws : List (List Rune))
    (c w : List Rune) (hw : ∀ r ∈ w, U.IsLower r = true ∨ U.IsDigit r = true) :
    splitLoop U ⟨wordSplitMode, ws, c⟩ w = ⟨wordSplitMode, ws, c ++ w⟩ := by
  induction w generalizing c with
  | nil => simp [splitLoop_nil]
  | cons r w ih =>
    rw [splitLoop_cons, splitStep_word_lower_digit h ws c (hw r (List.mem_cons_self _ _)),
      ih _ (fun x hx => hw x (List.mem_cons_of_mem _ hx))]
    simp

theorem splitLoop_acronym {U : UnicodeTables} (h : U.Lawful) (ws : List (List Rune))
    (c A : List Rune) (hA : ∀ r ∈ A, U.IsUpper r = true) :
    splitLoop U ⟨acronymSplitMode, ws, c⟩ A = ⟨acronymSplitMode, ws, c ++ A⟩ := by
  induction A generalizing c with
  | nil => simp [splitLoop_nil]
  | cons r A ih =>
    rw [splitLoop_cons, splitStep_acronym_upper h ws c (hA r (List.mem_cons_self _ _)),
      ih _ (fun x hx => hA x (List.mem_cons_of_mem _ hx))]
    simp

/-! ## From the final loop state to the result of `SplitName` -/

theorem finishWord_neg_one_words {U : UnicodeTables} (h : U.Lawful) (m : splitMode)
    (ws : List (List Rune)) (c : List Rune) :
    (finishWord U ⟨m, ws, c⟩ (-1)).words = if c = [] then ws else ws ++ [c] := by
  by_cases hc : c = []
  · subst hc
    simp [finishWord_other_nil h m ws h.letter_neg_one]
  · simp [finishWord_other h m ws hc h.letter_neg_one, hc]

/-- Under the table laws the two base cases of `SplitName` agree with the state machine. -/
theorem SplitName_eq_splitName {U : UnicodeTables} (h : U.Lawful) (name : List Rune) :
    SplitName U name
      = if splitName U newSplitState name = [] then [[]]
        else splitName U newSplitState name := by
  match name with
  | [] =>
    simp [SplitName, splitName, splitLoop_nil, newSplitState, finishWord_neg_one_words h]
  | [x] =>
    by_cases hx : (U.IsLetter x || U.IsDigit x) = true
    · have hv : ValidRune x = true := by
        rcases Bool.or_eq_true _ _ ▸ hx with hl | hd
        · exact h.letter_valid x hl
        · exact h.digit_valid x hd
      by_cases hu : U.IsUpper x = true
      · simp [SplitName, splitName, splitLoop, newSplitState, splitStep, startWord,
          DecodeRuneInString, hx, hu, WriteRune_valid _ hv, finishWord_neg_one_words h]
      · simp [SplitName, splitName, splitLoop, newSplitState, splitStep, startWord,
          DecodeRuneInString, hx, hu, WriteRune_valid _ hv, finishWord_neg_one_words h]
    · simp [SplitName, splitName, splitLoop, newSplitState, splitStep, DecodeRuneInString, hx,
        finishWord_neg_one_words h]
  | x :: y :: l =>
    simp [SplitName]

theorem SplitName_of_loop_word {U : UnicodeTables} (h : U.Lawful) {name : List Rune}
    {m : splitMode} {ws : List (List Rune)} {c : List Rune}
    (hloop : splitLoop U newSplitState name = ⟨m, ws, c⟩) (hc : c ≠ []) :
    SplitName U name = ws ++ [c] := by
  simp [SplitName_eq_splitName h, splitName, hloop, finishWord_neg_one_words h, hc]

theorem SplitName_of_loop_bound {U : UnicodeTables} (h : U.Lawful) {name : List Rune}
    {m : splitMode} {ws : List (List Rune)}
    (hloop : splitLoop U newSplitState name = ⟨m, ws, []⟩) (hws : ws ≠ []) :
    SplitName U name = ws := by
  simp [SplitName_eq_splitName h, splitName, hloop, finishWord_neg_one_words h, hws]

/-! ## Dependence on the tables -/

theorem sampleTables_ascii : sampleTables.ASCII := by
  constructor <;> intro (r : Int) h0 h1
  all_goals
    have e1 : decide (r = 225) = false := decide_eq_false (by omega)
    have e2 : decide (r = 497) = false := decide_eq_false (by omega)
    have e3 : decide (r = 498) = false := decide_eq_false (by omega)
    have e4 : decide (r = 499) = false := decide_eq_false (by omega)
    have e5 : decide (r = 20013) = false := decide_eq_false (by omega)
    simp only [sampleTables, e1, e2, e3, e4, e5, Bool.or_false]

theorem agreeAt_of_ascii {U V : UnicodeTables} (hU : U.ASCII) (hV : V.ASCII) {r : Int}
    (h0 : 0 ≤ r) (h1 : r < 128) : agreeAt U V r := by
  refine ⟨?_, ?_, ?_, ?_, ?_⟩
  · rw [hU.letter r h0 h1, hV.letter r h0 h1]
  · rw [hU.digit r h0 h1, hV.digit r h0 h1]
  · rw [hU.upper r h0 h1, hV.upper r h0 h1]
  · rw [hU.lower r h0 h1, hV.lower r h0 h1]
  · rw [hU.title r h0 h1, hV.title r h0 h1]

theorem splitStep_congr {U V : UnicodeTables} {r : Rune} (hr : agreeAt U V r)
    (s : splitState) : splitStep U s r = splitStep V s r := by
  obtain ⟨h1, h2, h3, h4, h5⟩ := hr
  simp [splitStep, startWord, writeWordRune, finishWord, h1, h2, h3, h4, h5]

theorem splitLoop_congr {U V : UnicodeTables} (name : List Rune)
    (hname : ∀ r ∈ name, agreeAt U V r) (s : splitState) :
    splitLoop U s name = splitLoop V s name := by
  induction name generalizing s with
  | nil => rfl
  | cons r name ih =>
    rw [splitLoop_cons, splitLoop_cons, splitStep_congr (hname r (List.mem_cons_self _ _)),
      ih (fun x hx => hname x (List.mem_cons_of_mem _ hx))]

/-- The result of `SplitName` depends on the tables only through the runes of the input. -/
theorem SplitName_congr {U V : UnicodeTables} (hU : U.Lawful) (hV : V.Lawful)
    (name : List Rune) (hname : ∀ r ∈ name, agreeAt U V r) :
    SplitName U name = SplitName V name := by
  have hloop := splitLoop_congr name hname newSplitState
  have hsplit : splitName U newSplitState name = splitName V newSplitState name := by
    rw [splitName, splitName, hloop]
    generalize splitLoop V newSplitState name = s
    obtain ⟨m, ws, c⟩ := s
    rw [finishWord_neg_one_words hU, finishWord_neg_one_words hV]
  rw [SplitName_eq_splitName hU, SplitName_eq_splitName hV, hsplit]

/-! ## Claims about runs of characters -/

/-- C2: acronym split-before-last for a run of any length.  For every run `A` of at least two
uppercase letters, every lowercase letter `l` and every run `w` of lowercase letters and
digits, `SplitName (A ++ l :: w)` is `A` without its last letter, followed by the word made
of the last letter of `A` and `l :: w`. -/
theorem SplitName_acronym_split_before_last {U : UnicodeTables} (h : U.Lawful)
    (A w : List Rune) (l : Rune) (hn : 2 ≤ A.length) (hA : ∀ r ∈ A, U.IsUpper r = true)
    (hl : U.IsLower l = true) (hw : ∀ r ∈ w, U.IsLower r = true ∨ U.IsDigit r = true) :
    SplitName U (A ++ l :: w) = [A.take (A.length - 1), A.drop (A.length - 1) ++ l :: w] := by
  match A, hn, hA with
  | a0 :: a1 :: A1, _, hA =>
    have h0 : U.IsUpper a0 = true := hA a0 (by simp)
    have h1 : U.IsUpper a1 = true := hA a1 (by simp)
    have hA1 : ∀ r ∈ A1, U.IsUpper r = true := fun r hr => hA r (by simp [hr])
    have hne : a0 :: a1 :: A1 ≠ [] := by simp
    have hsplit := List.dropLast_append_getLast hne
    have hu : U.IsUpper ((a0 :: a1 :: A1).getLast hne) = true := hA _ (List.getLast_mem hne)
    have hloop : splitLoop U newSplitState ((a0 :: a1 :: A1) ++ l :: w)
        = ⟨wordSplitMode, [(a0 :: a1 :: A1).dropLast],
            [(a0 :: a1 :: A1).getLast hne, l] ++ w⟩ := by
      rw [splitLoop_append]
      have hacr : splitLoop U newSplitState (a0 :: a1 :: A1)
          = ⟨acronymSplitMode, [], (a0 :: a1 :: A1).dropLast
              ++ [(a0 :: a1 :: A1).getLast hne]⟩ := by
        rw [hsplit, splitLoop_cons, newSplitState, splitStep_bound_upper h _ _ h0,
          splitLoop_cons, splitStep_wordStart_upper h _ _ h1, splitLoop_acronym h _ _ _ hA1]
        simp
      rw [hacr, splitLoop_cons, splitStep_acronym_lower h _ _ (h.upper_valid hu) hl,
        splitLoop_word h _ _ _ hw]
      simp
    rw [SplitName_of_loop_word h hloop (by simp)]
    have hd : (a0 :: a1 :: A1).drop ((a0 :: a1 :: A1).length - 1)
        = [(a0 :: a1 :: A1).getLast hne] := by
      conv_lhs => rw [← hsplit]
      rw [List.drop_append_eq_append_drop]
      simp
    rw [hd, ← List.dropLast_eq_take]
    simp

/-- Witness of C2 on "WORDWord": the run is "WORDW", followed by "o" and "rd". -/
theorem SplitName_acronym_split_before_last_witness :
    SplitName sampleTables (runes "WORDWord") = [runes "WORD", runes "Word"] :=
  SplitName_acronym_split_before_last sampleTables_lawful (runes "WORDW") (runes "rd") 111
    (by decide) (by decide) (by decide) (by decide)

/-- C3, as stated, fails: `SplitName "PKCS1v15DecryptOptions"` is not
`["PKCS1", "v15", "Decrypt", "Options"]`. -/
theorem SplitName_PKCS1v15_not_four_words :
    SplitName sampleTables (runes "PKCS1v15DecryptOptions")
      ≠ [runes "PKCS1", runes "v15", runes "Decrypt", runes "Options"] := by
  decide

/-- C3, amended: `SplitName "PKCS1v15DecryptOptions"` is
`["PKCS1v15", "Decrypt", "Options"]`, for every table that classifies ASCII as Go does; the
digit `1` ends the acronym run and the following lowercase `v` continues the word. -/
theorem SplitName_PKCS1v15 {U : UnicodeTables} (h : U.Lawful) (ha : U.ASCII) :
    SplitName U (runes "PKCS1v15DecryptOptions")
      = [runes "PKCS1v15", runes "Decrypt", runes "Options"] := by
  have hrange : ∀ r ∈ runes "PKCS1v15DecryptOptions", (0 : Int) ≤ r ∧ r < 128 := by decide
  rw [SplitName_congr h sampleTables_lawful _
    (fun r hr => agreeAt_of_ascii ha sampleTables_ascii (hrange r hr).1 (hrange r hr).2)]
  decide

/-- Witness of the amended C3 on the sample tables. -/
theorem SplitName_PKCS1v15_witness :
    SplitName sampleTables (runes "PKCS1v15DecryptOptions")
      = [runes "PKCS1v15", runes "Decrypt", runes "Options"] :=
  SplitName_PKCS1v15 sampleTables_lawful sampleTables_ascii

/-- C4: a digit after an uppercase run keeps the word going.  For every non-empty run `A` of
uppercase letters, every non-empty run `D` of digits and every run `w` of lowercase letters
and digits, `SplitName (A ++ D ++ w)` is the single word `A ++ D ++ w`. -/
theorem SplitName_upper_digits_single_word {U : UnicodeTables} (h : U.Lawful)
    (A D w : List Rune) (hAne : A ≠ []) (hDne : D ≠ [])
    (hA : ∀ r ∈ A, U.IsUpper r = true) (hD : ∀ r ∈ D, U.IsDigit r = true)
    (hw : ∀ r ∈ w, U.IsLower r = true ∨ U.IsDigit r = true) :
    SplitName U (A ++ D ++ w) = [A ++ D ++ w] := by
  match A, hAne, hA, D, hDne, hD with
  | a0 :: A1, _, hA, d0 :: D1, _, hD =>
    have h0 : U.IsUpper a0 = true := hA a0 (by simp)
    have hd0 : U.IsDigit d0 = true := hD d0 (by simp)
    have hrest : ∀ r ∈ D1 ++ w, U.IsLower r = true ∨ U.IsDigit r = true := by
      intro r hr
      rcases List.mem_append.mp hr with hr | hr
      · exact Or.inr (hD r (by simp [hr]))
      · exact hw r hr
    have hhead : splitLoop U newSplitState (a0 :: A1 ++ [d0])
        = ⟨wordSplitMode, [], a0 :: A1 ++ [d0]⟩ := by
      cases A1 with
      | nil =>
        simp only [List.cons_append, List.nil_append]
        rw [splitLoop_cons, newSplitState, splitStep_bound_upper h _ _ h0, splitLoop_cons,
          splitStep_wordStart_lower_digit h _ _ (Or.inr hd0), splitLoop_nil]
        simp
      | cons a1 A2 =>
        have h1 : U.IsUpper a1 = true := hA a1 (by simp)
        have hA2 : ∀ r ∈ A2, U.IsUpper r = true := fun r hr => hA r (by simp [hr])
        simp only [List.cons_append]
        rw [splitLoop_cons, newSplitState, splitStep_bound_upper h _ _ h0, splitLoop_cons,
          splitStep_wordStart_upper h _ _ h1, splitLoop_append, splitLoop_acronym h _ _ _ hA2,
          splitLoop_cons, splitStep_acronym_digit h _ _ hd0, splitLoop_nil]
        simp
    have hname : a0 :: A1 ++ d0 :: D1 ++ w = (a0 :: A1 ++ [d0]) ++ (D1 ++ w) := by simp
    have hloop : splitLoop U newSplitState (a0 :: A1 ++ d0 :: D1 ++ w)
        = ⟨wordSplitMode, [], a0 :: A1 ++ d0 :: D1 ++ w⟩ := by
      rw [hname, splitLoop_append, hhead, splitLoop_word h _ _ _ hrest]
    rw [SplitName_of_loop_word h hloop (by simp)]
    simp

/-- Witness of C4 on "AA0". -/
theorem SplitName_upper_digits_single_word_witness :
    SplitName sampleTables (runes "AA0") = [runes "AA0"] :=
  SplitName_upper_digits_single_word sampleTables_lawful (runes "AA") (runes "0") []
    (by decide) (by decide) (by decide) (by decide) (by decide)

/-- C5: case-transition splitting.  For every non-empty run `w1` of lowercase letters and
digits, every uppercase letter `u` and every run `w2` of lowercase letters and digits,
`SplitName (w1 ++ u :: w2) = [w1, u :: w2]`. -/
theorem SplitName_case_transition {U : UnicodeTables} (h : U.Lawful)
    (w1 w2 : List Rune) (u : Rune) (hne : w1 ≠ [])
    (hw1 : ∀ r ∈ w1, U.IsLower r = true ∨ U.IsDigit r = true)
    (hu : U.IsUpper u = true)
    (hw2 : ∀ r ∈ w2, U.IsLower r = true ∨ U.IsDigit r = true) :
    SplitName U (w1 ++ u :: w2) = [w1, u :: w2] := by
  match w1, hne, hw1 with
  | x :: w1, _, hw1 =>
    have hx : U.IsLower x = true ∨ U.IsDigit x = true := hw1 x (by simp)
    have hw1r : ∀ r ∈ w1, U.IsLower r = true ∨ U.IsDigit r = true :=
      fun r hr => hw1 r (by simp [hr])
    have hmid : splitLoop U newSplitState (x :: w1 ++ [u])
        = ⟨wordStartSplitMode, [x :: w1], [u]⟩ := by
      simp only [List.cons_append]
      rw [splitLoop_cons, newSplitState, splitStep_bound_lower_digit h _ _ hx,
        splitLoop_append, splitLoop_word h _ _ _ hw1r, splitLoop_cons,
        splitStep_word_upper h _ (by simp) hu, splitLoop_nil]
      simp
    have hname : x :: w1 ++ u :: w2 = (x :: w1 ++ [u]) ++ w2 := by simp
    have hloop : ∃ m, splitLoop U newSplitState (x :: w1 ++ u :: w2)
        = ⟨m, [x :: w1], u :: w2⟩ := by
      rw [hname, splitLoop_append, hmid]
      cases w2 with
      | nil => exact ⟨_, rfl⟩
      | cons y w2 =>
        have hy : U.IsLower y = true ∨ U.IsDigit y = true := hw2 y (by simp)
        have hw2r : ∀ r ∈ w2, U.IsLower r = true ∨ U.IsDigit r = true :=
          fun r hr => hw2 r (by simp [hr])
        rw [splitLoop_cons, splitStep_wordStart_lower_digit h _ _ hy,
          splitLoop_word h _ _ _ hw2r]
        exact ⟨wordSplitMode, by simp⟩
    obtain ⟨m, hloop⟩ := hloop
    rw [SplitName_of_loop_word h hloop (by simp)]
    simp

/-- Witness of C5 on "wordWord". -/
theorem SplitName_case_transition_witness :
    SplitName sampleTables (runes "wordWord") = [runes "word", runes "Word"] :=
  SplitName_case_transition sampleTables_lawful (runes "word") (runes "ord") 87
    (by decide) (by decide) (by decide) (by decide)

/-! ## Delimiters -/

theorem splitLoop_bound_word {U : UnicodeTables} (h : U.Lawful) (ws : List (List Rune))
    {w : List Rune} (hne : w ≠ [])
    (hw : ∀ r ∈ w, U.IsLower r = true ∨ U.IsDigit r = true) :
    splitLoop U ⟨boundSplitMode, ws, []⟩ w = ⟨wordSplitMode, ws, w⟩ := by
  match w, hne, hw with
  | x :: w, _, hw =>
    rw [splitLoop_cons, splitStep_bound_lower_digit h _ _ (hw x (by simp)),
      splitLoop_word h _ _ _ (fun r hr => hw r (by simp [hr]))]
    simp

theorem splitLoop_word_delimiter {U : UnicodeTables} (h : U.Lawful) (ws : List (List Rune))
    {c : List Rune} (hc : c ≠ []) {d : List Rune} (hne : d ≠ [])
    (hd : ∀ r ∈ d, U.IsLetter r = false ∧ U.IsDigit r = false) :
    splitLoop U ⟨wordSplitMode, ws, c⟩ d = ⟨boundSplitMode, ws ++ [c], []⟩ := by
  match d, hne, hd with
  | x :: d, _, hd =>
    have hx := hd x (by simp)
    rw [splitLoop_cons, splitStep_word_other h _ hc hx.1 hx.2,
      splitLoop_bound U _ _ _ (fun r hr => hd r (by simp [hr]))]

theorem splitLoop_delimited_words {U : UnicodeTables} (h : U.Lawful)
    (rest : List (List Rune × List Rune))
    (hrest : ∀ p ∈ rest, (p.1 ≠ [] ∧ ∀ r ∈ p.1, U.IsLetter r = false ∧ U.IsDigit r = false)
      ∧ (p.2 ≠ [] ∧ ∀ r ∈ p.2, U.IsLower r = true ∨ U.IsDigit r = true))
    (ws : List (List Rune)) (c : List Rune) (hc : c ≠ []) :
    ∃ ws1 c1, splitLoop U ⟨wordSplitMode, ws, c⟩ (rest.map (fun p => p.1 ++ p.2)).flatten
        = ⟨wordSplitMode, ws1, c1⟩ ∧ c1 ≠ [] ∧ ws1 ++ [c1] = ws ++ c :: rest.map (fun p => p.2) := by
  induction rest generalizing ws c with
  | nil => exact ⟨ws, c, by simp [splitLoop_nil], hc, rfl⟩
  | cons p rest ih =>
    have hp := hrest p (by simp)
    obtain ⟨ws1, c1, hloop, hc1, heq⟩ :=
      ih (fun q hq => hrest q (by simp [hq])) (ws ++ [c]) p.2 hp.2.1
    refine ⟨ws1, c1, ?_, hc1, ?_⟩
    · simp only [List.map_cons, List.flatten_cons]
      rw [splitLoop_append, splitLoop_append, splitLoop_word_delimiter h ws hc hp.1.1 hp.1.2,
        splitLoop_bound_word h _ hp.2.1 hp.2.2, hloop]
    · rw [heq]; simp

/-- C6: delimiter collapsing.  Let `w1` and the second components of `rest` be non-empty runs
of lowercase letters and digits, let the first components of `rest` be non-empty runs of
non-word runes (the delimiters before each further word), and let `pre` and `post` be runs
of non-word runes, possibly empty.  Then `SplitName` of the assembled string is exactly the
list of the words, without any empty word. -/
theorem SplitName_delimiters {U : UnicodeTables} (h : U.Lawful)
    (pre w1 post : List Rune) (rest : List (List Rune × List Rune))
    (hpre : ∀ r ∈ pre, U.IsLetter r = false ∧ U.IsDigit r = false)
    (hpost : ∀ r ∈ post, U.IsLetter r = false ∧ U.IsDigit r = false)
    (hw1 : w1 ≠ [] ∧ ∀ r ∈ w1, U.IsLower r = true ∨ U.IsDigit r = true)
    (hrest : ∀ p ∈ rest, (p.1 ≠ [] ∧ ∀ r ∈ p.1, U.IsLetter r = false ∧ U.IsDigit r = false)
      ∧ (p.2 ≠ [] ∧ ∀ r ∈ p.2, U.IsLower r = true ∨ U.IsDigit r = true)) :
    SplitName U (pre ++ w1 ++ (rest.map (fun p => p.1 ++ p.2)).flatten ++ post)
      = w1 :: rest.map (fun p => p.2) := by
  obtain ⟨ws1, c1, hloop, hc1, heq⟩ := splitLoop_delimited_words h rest hrest [] w1 hw1.1
  have hbody : splitLoop U newSplitState
      (pre ++ w1 ++ (rest.map (fun p => p.1 ++ p.2)).flatten) = ⟨wordSplitMode, ws1, c1⟩ := by
    rw [splitLoop_append, splitLoop_append, newSplitState, splitLoop_bound U _ _ _ hpre,
      splitLoop_bound_word h _ hw1.1 hw1.2, hloop]
  have htarget : ws1 ++ [c1] = w1 :: rest.map (fun p => p.2) := by
    rw [heq]; simp
  by_cases hpe : post = []
  · subst hpe
    rw [List.append_nil, SplitName_of_loop_word h hbody hc1, htarget]
  · have hfull : splitLoop U newSplitState
        (pre ++ w1 ++ (rest.map (fun p => p.1 ++ p.2)).flatten ++ post)
        = ⟨boundSplitMode, ws1 ++ [c1], []⟩ := by
      rw [splitLoop_append, hbody, splitLoop_word_delimiter h _ hc1 hpe hpost]
    rw [SplitName_of_loop_bound h hfull (by simp), htarget]

/-- Witness of C6 on "_a__b_": leading, repeated and trailing delimiters. -/
theorem SplitName_delimiters_witness :
    SplitName sampleTables (runes "_a__b_") = [runes "a", runes "b"] :=
  SplitName_delimiters sampleTables_lawful (runes "_") (runes "a") (runes "_")
    [(runes "__", runes "b")] (by decide) (by decide) (by decide) (by decide)

/-! ## The invariant of the loop -/

/-- Every rune falls in exactly one of the classes upper, lower, title, digit, other. -/
theorem UnicodeTables.Lawful.classify {U : UnicodeTables} (h : U.Lawful) (r : Rune) :
    (U.IsUpper r = true ∧ U.IsLower r = false ∧ U.IsTitle r = false ∧ U.IsDigit r = false
        ∧ U.IsLetter r = true)
    ∨ (U.IsUpper r = false ∧ U.IsLower r = true ∧ U.IsTitle r = false ∧ U.IsDigit r = false
        ∧ U.IsLetter r = true)
    ∨ (U.IsUpper r = false ∧ U.IsLower r = false ∧ U.IsTitle r = true ∧ U.IsDigit r = false
        ∧ U.IsLetter r = true)
    ∨ (U.IsUpper r = false ∧ U.IsLower r = false ∧ U.IsTitle r = false ∧ U.IsDigit r = true
        ∧ U.IsLetter r = false)
    ∨ (U.IsUpper r = false ∧ U.IsLower r = false ∧ U.IsTitle r = false
        ∧ U.IsDigit r = false) := by
  have h1 := h.upper_letter r
  have h2 := h.lower_letter r
  have h3 := h.title_letter r
  have h4 := h.upper_not_lower r
  have h5 := h.upper_not_title r
  have h6 := h.lower_not_title r
  have h7 := h.digit_not_letter r
  cases hu : U.IsUpper r <;> cases hl : U.IsLower r <;> cases ht : U.IsTitle r <;>
    cases hd : U.IsDigit r <;> cases hL : U.IsLetter r <;> simp_all

theorem runesOk_nil (U : UnicodeTables) : runesOk U [] := by
  intro r hr; cases hr

theorem runesOk_cons {U : UnicodeTables} {r : Rune} {c : List Rune}
    (hr : U.IsLetter r = true ∨ U.IsDigit r = true) (hc : runesOk U c) : runesOk U (r :: c) := by
  intro x hx
  rcases List.mem_cons.mp hx with rfl | hx
  · exact hr
  · exact hc x hx

theorem runesOk_append {U : UnicodeTables} {c d : List Rune}
    (hc : runesOk U c) (hd : runesOk U d) : runesOk U (c ++ d) := by
  intro x hx
  rcases List.mem_append.mp hx with hx | hx
  · exact hc x hx
  · exact hd x hx

theorem wordsOk_concat {U : UnicodeTables} {ws : List (List Rune)} {c : List Rune}
    (hws : wordsOk U ws) (hne : c ≠ []) (hc : runesOk U c) : wordsOk U (ws ++ [c]) := by
  intro w hw
  rcases List.mem_append.mp hw with hw | hw
  · exact hws w hw
  · rw [List.mem_singleton.mp hw]; exact ⟨hne, hc⟩

theorem splitInv_new (U : UnicodeTables) : splitInv U newSplitState := by
  constructor <;> simp [newSplitState, wordsOk, runesOk]

theorem splitInv_bound {U : UnicodeTables} {ws : List (List Rune)} (hws : wordsOk U ws) :
    splitInv U ⟨boundSplitMode, ws, []⟩ := by
  constructor <;> simp [runesOk]
  exact hws

theorem splitInv_wordStart {U : UnicodeTables} {ws : List (List Rune)} {u : Rune}
    (hws : wordsOk U ws) (hu : U.IsUpper u = true) (hL : U.IsLetter u = true) :
    splitInv U ⟨wordStartSplitMode, ws, [u]⟩ := by
  constructor <;> simp [runesOk, hu, hL]
  exact hws

theorem splitInv_word {U : UnicodeTables} {ws : List (List Rune)} {c : List Rune}
    (hws : wordsOk U ws) (hne : c ≠ []) (hc : runesOk U c) :
    splitInv U ⟨wordSplitMode, ws, c⟩ := by
  constructor <;> simp [hne]
  · exact hws
  · exact hc

theorem splitInv_acronym {U : UnicodeTables} {ws : List (List Rune)} {p : List Rune}
    {u v : Rune} (hws : wordsOk U ws) (hp : runesOk U p) (hu : U.IsUpper u = true)
    (hv : U.IsUpper v = true) (hLu : U.IsLetter u = true) (hLv : U.IsLetter v = true) :
    splitInv U ⟨acronymSplitMode, ws, p ++ [u, v]⟩ := by
  constructor <;> simp
  · exact ⟨p, u, v, rfl, hu, hv⟩
  · exact hws
  · exact runesOk_append hp (runesOk_cons (Or.inl hLu) (runesOk_cons (Or.inl hLv) (runesOk_nil U)))

theorem splitInv_step {U : UnicodeTables} (h : U.Lawful) {s : splitState}
    (hs : splitInv U s) (r : Rune) : splitInv U (splitStep U s r) := by
  obtain ⟨m, ws, c⟩ := s
  obtain ⟨hb, hn, hw1, ha2, hwo, hco⟩ := hs
  simp only at hb hn hw1 ha2 hwo hco
  have hone : ∀ x : Rune, (U.IsLetter x = true ∨ U.IsDigit x = true) → runesOk U [x] :=
    fun x hx => runesOk_cons hx (runesOk_nil U)
  rcases h.classify r with ⟨hu, hl, ht, hd, hL⟩ | ⟨hu, hl, ht, hd, hL⟩ | ⟨hu, hl, ht, hd, hL⟩
    | ⟨hu, hl, ht, hd, hL⟩ | ⟨hu, hl, ht, hd⟩
  · have hv := h.letter_valid r hL
    cases m
    · have hc := hb rfl
      subst hc
      rw [show splitStep U ⟨_, ws, _⟩ r = ⟨wordStartSplitMode, ws, [r]⟩ by
        simp [splitStep, startWord, writeWordRune, finishWord, addWord, WriteRune,
          DecodeLastRuneInString, hu, hl, ht, hd, hL, hv]]
      exact splitInv_wordStart hwo hu hL
    · obtain ⟨u, hc, huu⟩ := hw1 rfl
      subst hc
      have hcu := hco u (by simp)
      rw [show splitStep U ⟨_, ws, _⟩ r = ⟨acronymSplitMode, ws, [] ++ [u, r]⟩ by
        simp [splitStep, startWord, writeWordRune, finishWord, addWord, WriteRune,
          DecodeLastRuneInString, hu, hl, ht, hd, hL, hv]]
      exact splitInv_acronym hwo (runesOk_nil U) huu hu (h.upper_letter u huu) hL
    · have hc := hn (by simp)
      have hlen : 0 < c.length := List.length_pos.mpr hc
      rw [show splitStep U ⟨_, ws, _⟩ r = ⟨wordStartSplitMode, ws ++ [c], [r]⟩ by
        simp [splitStep, startWord, writeWordRune, finishWord, addWord, WriteRune,
          DecodeLastRuneInString, hu, hl, ht, hd, hL, hv, hlen]]
      exact splitInv_wordStart (wordsOk_concat hwo hc hco) hu hL
    · obtain ⟨p, u, v, hc, huu, huv⟩ := ha2 rfl
      subst hc
      have hp : runesOk U p := fun x hx => hco x (by simp [hx])
      have hcu := hco u (by simp)
      have hcv := hco v (by simp)
      rw [show splitStep U ⟨_, ws, _⟩ r = ⟨acronymSplitMode, ws, (p ++ [u]) ++ [v, r]⟩ by
        simp [splitStep, startWord, writeWordRune, finishWord, addWord, WriteRune,
          DecodeLastRuneInString, hu, hl, ht, hd, hL, hv]]
      exact splitInv_acronym hwo (runesOk_append hp (hone u hcu)) huv hu (h.upper_letter v huv) hL
  · have hv := h.letter_valid r hL
    cases m
    · have hc := hb rfl
      subst hc
      rw [show splitStep U ⟨_, ws, _⟩ r = ⟨wordSplitMode, ws, [r]⟩ by
        simp [splitStep, startWord, writeWordRune, finishWord, addWord, WriteRune,
          DecodeLastRuneInString, hu, hl, ht, hd, hL, hv]]
      exact splitInv_word hwo (by simp) (hone r (Or.inl hL))
    · obtain ⟨u, hc, huu⟩ := hw1 rfl
      subst hc
      have hcu := hco u (by simp)
      rw [show splitStep U ⟨_, ws, _⟩ r = ⟨wordSplitMode, ws, [u, r]⟩ by
        simp [splitStep, startWord, writeWordRune, finishWord, addWord, WriteRune,
          DecodeLastRuneInString, hu, hl, ht, hd, hL, hv]]
      exact splitInv_word hwo (by simp) (runesOk_cons hcu (hone r (Or.inl hL)))
    · have hc := hn (by simp)
      have hlen : 0 < c.length := List.length_pos.mpr hc
      rw [show splitStep U ⟨_, ws, _⟩ r = ⟨wordSplitMode, ws, c ++ [r]⟩ by
        simp [splitStep, startWord, writeWordRune, finishWord, addWord, WriteRune,
          DecodeLastRuneInString, hu, hl, ht, hd, hL, hv, hlen]]
      exact splitInv_word hwo (by simp) (runesOk_append hco (hone r (Or.inl hL)))
    · obtain ⟨p, u, v, hc, huu, huv⟩ := ha2 rfl
      subst hc
      have hp : runesOk U p := fun x hx => hco x (by simp [hx])
      have hcu := hco u (by simp)
      have hcv := hco v (by simp)
      rw [show p ++ [u, v] = (p ++ [u]) ++ [v] by simp,
        splitStep_acronym_lower h ws (p ++ [u]) (h.upper_valid huv) hl]
      exact splitInv_word (wordsOk_concat hwo (by simp) (runesOk_append hp (hone u hcu))) (by simp) (runesOk_cons hcv (hone r (Or.inl hL)))
  · have hv := h.letter_valid r hL
    cases m
    · have hc := hb rfl
      subst hc
      rw [show splitStep U ⟨_, ws, _⟩ r = ⟨wordSplitMode, ws, [r]⟩ by
        simp [splitStep, startWord, writeWordRune, finishWord, addWord, WriteRune,
          DecodeLastRuneInString, hu, hl, ht, hd, hL, hv]]
      exact splitInv_word hwo (by simp) (hone r (Or.inl hL))
    · obtain ⟨u, hc, huu⟩ := hw1 rfl
      subst hc
      have hcu := hco u (by simp)
      rw [show splitStep U ⟨_, ws, _⟩ r = ⟨wordSplitMode, ws ++ [[u]], [r]⟩ by
        simp [splitStep, startWord, writeWordRune, finishWord, addWord, WriteRune,
          DecodeLastRuneInString, hu, hl, ht, hd, hL, hv]]
      exact splitInv_word (wordsOk_concat hwo (by simp) hco) (by simp) (hone r (Or.inl hL))
    · have hc := hn (by simp)
      have hlen : 0 < c.length := List.length_pos.mpr hc
      rw [show splitStep U ⟨_, ws, _⟩ r = ⟨wordSplitMode, ws ++ [c], [r]⟩ by
        simp [splitStep, startWord, writeWordRune, finishWord, addWord, WriteRune,
          DecodeLastRuneInString, hu, hl, ht, hd, hL, hv, hlen]]
      exact splitInv_word (wordsOk_concat hwo hc hco) (by simp) (hone r (Or.inl hL))
    · obtain ⟨p, u, v, hc, huu, huv⟩ := ha2 rfl
      subst hc
      have hp : runesOk U p := fun x hx => hco x (by simp [hx])
      have hcu := hco u (by simp)
      have hcv := hco v (by simp)
      rw [show splitStep U ⟨_, ws, _⟩ r = ⟨wordSplitMode, ws ++ [p ++ [u, v]], [r]⟩ by
        simp [splitStep, startWord, writeWordRune, finishWord, addWord, WriteRune,
          DecodeLastRuneInString, hu, hl, ht, hd, hL, hv]]
      exact splitInv_word (wordsOk_concat hwo (by simp) hco) (by simp) (hone r (Or.inl hL))
  · have hv := h.digit_valid r hd
    cases m
    · have hc := hb rfl
      subst hc
      rw [show splitStep U ⟨_, ws, _⟩ r = ⟨wordSplitMode, ws, [r]⟩ by
        simp [splitStep, startWord, writeWordRune, finishWord, addWord, WriteRune,
          DecodeLastRuneInString, hu, hl, ht, hd, hL, hv]]
      exact splitInv_word hwo (by simp) (hone r (Or.inr hd))
    · obtain ⟨u, hc, huu⟩ := hw1 rfl
      subst hc
      have hcu := hco u (by simp)
      rw [show splitStep U ⟨_, ws, _⟩ r = ⟨wordSplitMode, ws, [u, r]⟩ by
        simp [splitStep, startWord, writeWordRune, finishWord, addWord, WriteRune,
          DecodeLastRuneInString, hu, hl, ht, hd, hL, hv]]
      exact splitInv_word hwo (by simp) (runesOk_cons hcu (hone r (Or.inr hd)))
    · have hc := hn (by simp)
      have hlen : 0 < c.length := List.length_pos.mpr hc
      rw [show splitStep U ⟨_, ws, _⟩ r = ⟨wordSplitMode, ws, c ++ [r]⟩ by
        simp [splitStep, startWord, writeWordRune, finishWord, addWord, WriteRune,
          DecodeLastRuneInString, hu, hl, ht, hd, hL, hv, hlen]]
      exact splitInv_word hwo (by simp) (runesOk_append hco (hone r (Or.inr hd)))
    · obtain ⟨p, u, v, hc, huu, huv⟩ := ha2 rfl
      subst hc
      have hp : runesOk U p := fun x hx => hco x (by simp [hx])
      have hcu := hco u (by simp)
      have hcv := hco v (by simp)
      rw [show splitStep U ⟨_, ws, _⟩ r = ⟨wordSplitMode, ws, p ++ [u, v] ++ [r]⟩ by
        simp [splitStep, startWord, writeWordRune, finishWord, addWord, WriteRune,
          DecodeLastRuneInString, hu, hl, ht, hd, hL, hv]]
      exact splitInv_word hwo (by simp) (runesOk_append hco (hone r (Or.inr hd)))
  · cases m
    · have hc := hb rfl
      subst hc
      cases hL : U.IsLetter r
      · rw [show splitStep U ⟨_, ws, _⟩ r = ⟨boundSplitMode, ws, []⟩ by
          simp [splitStep, hL, hd]]
        exact splitInv_bound hwo
      · have hv := h.letter_valid r hL
        rw [show splitStep U ⟨_, ws, _⟩ r = ⟨wordSplitMode, ws, [r]⟩ by
          simp [splitStep, startWord, WriteRune, hu, hL, hv]]
        exact splitInv_word hwo (by simp) (hone r (Or.inl hL))
    · obtain ⟨u, hc, huu⟩ := hw1 rfl
      subst hc
      rw [show splitStep U ⟨_, ws, _⟩ r = ⟨boundSplitMode, ws ++ [[u]], []⟩ by
        simp [splitStep, finishWord, addWord, hu, hl, ht, hd]]
      exact splitInv_bound (wordsOk_concat hwo (by simp) hco)
    · have hc := hn (by simp)
      have hlen : 0 < c.length := List.length_pos.mpr hc
      rw [show splitStep U ⟨_, ws, _⟩ r = ⟨boundSplitMode, ws ++ [c], []⟩ by
        simp [splitStep, finishWord, addWord, hu, hl, ht, hd, hlen]]
      exact splitInv_bound (wordsOk_concat hwo hc hco)
    · obtain ⟨p, u, v, hc, huu, huv⟩ := ha2 rfl
      subst hc
      rw [show splitStep U ⟨_, ws, _⟩ r = ⟨boundSplitMode, ws ++ [p ++ [u, v]], []⟩ by
        simp [splitStep, finishWord, addWord, hu, hl, ht, hd]]
      exact splitInv_bound (wordsOk_concat hwo (by simp) hco)

theorem splitInv_loop {U : UnicodeTables} (h : U.Lawful) (name : List Rune) {s : splitState}
    (hs : splitInv U s) : splitInv U (splitLoop U s name) := by
  induction name generalizing s with
  | nil => exact hs
  | cons r name ih => exact ih (splitInv_step h hs r)

theorem splitName_wordsOk {U : UnicodeTables} (h : U.Lawful) (name : List Rune) :
    wordsOk U (splitName U newSplitState name) := by
  have hinv := splitInv_loop h name (splitInv_new U)
  rw [splitName]
  generalize splitLoop U newSplitState name = s at hinv ⊢
  obtain ⟨m, ws, c⟩ := s
  rw [finishWord_neg_one_words h]
  by_cases hc : c = []
  · simp only [hc, if_true]; exact hinv.words_ok
  · simp only [hc, if_false]; exact wordsOk_concat hinv.words_ok hc hinv.cur_ok

theorem started_step {U : UnicodeTables} {s : splitState} (hs : splitInv U s) (r : Rune)
    (hst : started s ∨ (U.IsLetter r = true ∨ U.IsDigit r = true)) :
    started (splitStep U s r) := by
  obtain ⟨m, ws, c⟩ := s
  cases m
  · have hc := hs.bound_empty rfl
    simp only at hc
    subst hc
    by_cases hw : (U.IsLetter r || U.IsDigit r) = true
    · simp only [splitStep, hw, if_true, startWord, WriteRune, started]
      split_ifs <;> simp
    · simp only [splitStep, hw, started]
      rcases hst with hst | hst
      · simpa [started] using hst
      · simp at hw; rcases hst with hst | hst <;> simp [hst] at hw
  all_goals
    have hc := hs.nonempty (by simp)
    have hlen : 0 < c.length := List.length_pos.mpr hc
    simp only [splitStep, writeWordRune, finishWord, addWord, hlen, WriteRune, started]
    split_ifs <;> simp

theorem started_loop {U : UnicodeTables} (h : U.Lawful) (name : List Rune) {s : splitState}
    (hs : splitInv U s)
    (hst : started s ∨ ∃ r ∈ name, U.IsLetter r = true ∨ U.IsDigit r = true) :
    started (splitLoop U s name) := by
  induction name generalizing s with
  | nil =>
    rcases hst with hst | ⟨r, hr, _⟩
    · exact hst
    · cases hr
  | cons x name ih =>
    rw [splitLoop_cons]
    apply ih (splitInv_step h hs x)
    rcases hst with hst | ⟨r, hr, hw⟩
    · exact Or.inl (started_step hs x (Or.inl hst))
    · rcases List.mem_cons.mp hr with rfl | hr
      · exact Or.inl (started_step hs r (Or.inr hw))
      · exact Or.inr ⟨r, hr, hw⟩

theorem splitName_ne_nil {U : UnicodeTables} (h : U.Lawful) (name : List Rune)
    (hname : ∃ r ∈ name, U.IsLetter r = true ∨ U.IsDigit r = true) :
    splitName U newSplitState name ≠ [] := by
  have hst := started_loop h name (splitInv_new U) (Or.inr hname)
  rw [splitName]
  generalize splitLoop U newSplitState name = s at hst ⊢
  obtain ⟨m, ws, c⟩ := s
  rw [finishWord_neg_one_words h]
  by_cases hc : c = []
  · rcases hst with hst | hst
    · simpa [hc] using hst
    · exact absurd hc hst
  · simp [hc]

theorem foldl_write_eq {α : Type} (f : List Rune → List α) (sep : List α)
    (ws : List (List Rune)) (b : List α) :
    ws.foldl (fun b word => (b ++ sep) ++ f word) b
      = b ++ (ws.map (fun word => sep ++ f word)).flatten := by
  induction ws generalizing b with
  | nil => simp
  | cons w ws ih =>
    simp only [List.foldl_cons, List.map_cons, List.flatten_cons]
    rw [ih]
    simp

/-! ## Claims about every input -/

/-- C1 fails on the code at the input "a中": the word runes of the input are "a中", but
`SplitName` returns `["a"]`; the caseless letter `中` arrives while a word is being
accumulated and is dropped by the default branch of `finishWord`. -/
theorem SplitName_drops_caseless_letter :
    SplitName sampleTables (runes "a中") = [runes "a"]
      ∧ wordRunes sampleTables (runes "a中") = runes "a中"
      ∧ (SplitName sampleTables (runes "a中")).flatten
          ≠ wordRunes sampleTables (runes "a中") := by
  decide

/-- C7: for every input string `SplitName` returns a non-empty sequence of words, and hence
the function built by `CreateNaming` never fails on its access to `words[0]`. -/
theorem SplitName_ne_nil (U : UnicodeTables) (name : List Rune) :
    SplitName U name ≠ []
      ∧ ∀ (α : Type) (mapFirst mapRest : List Rune → List α) (sep : List α),
          (CreateNaming U mapFirst mapRest sep name).isSome = true := by
  have hne : SplitName U name ≠ [] := by
    simp only [SplitName]
    by_cases h1 : name = []
    · simp [h1]
    · by_cases h2 : name.length = 1
      · by_cases h3 : (U.IsLetter (DecodeRuneInString name).1
            || U.IsDigit (DecodeRuneInString name).1) = true
        · simp [h1, h2, h3]
        · simp [h1, h2, h3]
      · by_cases h3 : splitName U newSplitState name = []
        · simp [h1, h2, h3]
        · simp [h1, h2, h3]
  refine ⟨hne, ?_⟩
  intro α mapFirst mapRest sep
  unfold CreateNaming
  cases hsplit : SplitName U name with
  | nil => exact absurd hsplit hne
  | cons w0 rest => rfl

/-- C8: if the input contains no letter and no digit, `SplitName` returns exactly `[""]`; if
it contains at least one letter or digit, every word that `SplitName` returns is non-empty. -/
theorem SplitName_empty_word {U : UnicodeTables} (h : U.Lawful) (name : List Rune) :
    ((∀ r ∈ name, U.IsLetter r = false ∧ U.IsDigit r = false) → SplitName U name = [[]])
      ∧ ((∃ r ∈ name, U.IsLetter r = true ∨ U.IsDigit r = true) →
          ∀ w ∈ SplitName U name, w ≠ []) := by
  constructor
  · intro hname
    rw [SplitName_eq_splitName h, splitName, newSplitState, splitLoop_bound U _ _ _ hname,
      finishWord_neg_one_words h]
    simp
  · intro hname w hw
    rw [SplitName_eq_splitName h, if_neg (splitName_ne_nil h name hname)] at hw
    exact (splitName_wordsOk h name w hw).1

/-- Witness of C8 on "__" (no word rune) and on "_a_" (one word rune): the first splits into
the single empty word, the result of the second does not contain the empty word. -/
theorem SplitName_empty_word_witness :
    SplitName sampleTables (runes "__") = [[]]
      ∧ [] ∉ SplitName sampleTables (runes "_a_") :=
  ⟨(SplitName_empty_word sampleTables_lawful (runes "__")).1 (by decide),
   fun hmem => (SplitName_empty_word sampleTables_lawful (runes "_a_")).2
     ⟨97, by decide, by decide⟩ [] hmem rfl⟩

/-- C9: every rune of every word returned by `SplitName` is a letter or a digit. -/
theorem SplitName_words_letters_digits {U : UnicodeTables} (h : U.Lawful)
    (name : List Rune) :
    ∀ w ∈ SplitName U name, ∀ r ∈ w, U.IsLetter r = true ∨ U.IsDigit r = true := by
  intro w hw r hr
  rw [SplitName_eq_splitName h] at hw
  split_ifs at hw with hnil
  · rw [List.mem_singleton.mp hw] at hr; cases hr
  · exact (splitName_wordsOk h name w hw).2 r hr

/-- Witness of C9 on "a_中a0": all runes of all returned words are letters or digits. -/
theorem SplitName_words_letters_digits_witness :
    (SplitName sampleTables (runes "a_中a0")).all
      (fun w => w.all (fun r => sampleTables.IsLetter r || sampleTables.IsDigit r)) = true :=
  List.all_eq_true.mpr (fun w hw => List.all_eq_true.mpr (fun r hr => by
    simpa using
      SplitName_words_letters_digits sampleTables_lawful (runes "a_中a0") w hw r hr))

/-- C10: with `w0 :: ws = SplitName name`, the function built by `CreateNaming` returns
`mapFirst w0` followed by `sep ++ mapRest w` for each further word `w` in order; when there
is only one word the output is `mapFirst w0`, without separator. -/
theorem CreateNaming_eq {α : Type} (U : UnicodeTables) (mapFirst mapRest : List Rune → List α)
    (sep : List α) (name : List Rune) (w0 : List Rune) (ws : List (List Rune))
    (hsplit : SplitName U name = w0 :: ws) :
    CreateNaming U mapFirst mapRest sep name
        = some (mapFirst w0 ++ (ws.map (fun w => sep ++ mapRest w)).flatten)
      ∧ (ws = [] → CreateNaming U mapFirst mapRest sep name = some (mapFirst w0)) := by
  have hmain : CreateNaming U mapFirst mapRest sep name
      = some (mapFirst w0 ++ (ws.map (fun w => sep ++ mapRest w)).flatten) := by
    simp only [CreateNaming, hsplit]
    rw [foldl_write_eq]
  refine ⟨hmain, ?_⟩
  intro hws
  rw [hmain, hws]
  simp

/-- Witness of C10: `mapFirst` constantly "a", `mapRest` constantly "b", separator "_" and
name "word_word_word" give "a_b_b". -/
theorem CreateNaming_eq_witness :
    CreateNaming sampleTables (fun _ => runes "a") (fun _ => runes "b") (runes "_")
        (runes "word_word_word") = some (runes "a_b_b") :=
  (CreateNaming_eq sampleTables (fun _ => runes "a") (fun _ => runes "b") (runes "_")
    (runes "word_word_word") (runes "word") [runes "word", runes "word"] (by decide)).1

/-! ## Base cases and `ToTitle` -/

theorem sampleCase_lawful : sampleCase.Lawful := by
  constructor <;> intro (r : Int) hr <;>
    simp only [sampleCase, ValidRune, Bool.or_eq_true, Bool.and_eq_true,
      decide_eq_true_eq] at hr ⊢ <;>
    split_ifs <;> omega

theorem sampleCase_ascii : sampleCase.ASCII := by
  constructor <;> intro (r : Int) h0 h1 <;> simp only [sampleCase] <;> split_ifs <;>
    first | rfl | (exfalso; omega)

theorem ValidRune_nonneg {r : Int} (hr : ValidRune r = true) : 0 ≤ r := by
  simp only [ValidRune, Bool.or_eq_true, Bool.and_eq_true, decide_eq_true_eq] at hr
  omega

theorem stringsMap_foldl (f : Rune → Rune) (s b : List Rune)
    (hs : ∀ c ∈ s, ValidRune (f c) = true) :
    s.foldl (fun b c => if 0 ≤ f c then WriteRune b (f c) else b) b = b ++ s.map f := by
  induction s generalizing b with
  | nil => simp
  | cons c s ih =>
    have hc := hs c (List.mem_cons_self _ _)
    simp only [List.foldl_cons, ValidRune_nonneg hc, if_true, WriteRune_valid _ hc]
    rw [ih _ (fun x hx => hs x (List.mem_cons_of_mem _ hx))]
    simp

/-- When every image is a valid code point, `strings.Map` is the rune-wise map. -/
theorem stringsMap_eq_map (f : Rune → Rune) (s : List Rune)
    (hs : ∀ c ∈ s, ValidRune (f c) = true) : stringsMap f s = s.map f := by
  rw [stringsMap, stringsMap_foldl f s [] hs]
  simp

theorem sliceFrom_first (c0 : Rune) (rest : List Rune) :
    sliceFrom (c0 :: rest) (RuneLen c0) = rest := by
  have hpos := RuneLen_pos c0
  have hne : RuneLen c0 ≠ 0 := by omega
  cases rest <;> simp [sliceFrom, hne]

/-- C15: base cases.  `SplitName ""` is `[""]`, and for a string of a single code point `c`
the result is `[c]` when `c` is a letter or digit, and `[""]` otherwise. -/
theorem SplitName_base_cases (U : UnicodeTables) :
    SplitName U [] = [[]]
      ∧ ∀ c : Rune, SplitName U [c] = if U.IsLetter c || U.IsDigit c then [[c]] else [[]] := by
  constructor
  · simp [SplitName]
  · intro c
    simp [SplitName, DecodeRuneInString]

/-- C13 fails on the code: for every choice of case mappings `ToTitle ""` is a string of one
rune, and with `unicode.ToTitle(U+FFFD) = U+FFFD` it is the replacement character, because
`DecodeRuneInString ""` returns `RuneError` and `WriteRune` writes it. -/
theorem ToTitle_empty_ne_empty :
    (∀ C : CaseTables, (ToTitle C []).length = 1) ∧ ToTitle sampleCase [] = [RuneError] := by
  constructor
  · intro C
    simp [ToTitle, DecodeRuneInString, WriteRune, sliceFrom, stringsToLower, stringsMap]
  · decide

/-- C12: for a non-empty word of valid code points `c0 :: rest`, `ToTitle` returns the
title-case mapping of `c0` followed by the lower-case mappings of the runes of `rest`, in
order.  The width returned for the first rune is within the word, and the remainder
`word[firstRuneSize:]` is exactly `rest`: no code point is split. -/
theorem ToTitle_cons {C : CaseTables} (hC : C.Lawful) (c0 : Rune) (rest : List Rune)
    (h0 : ValidRune c0 = true) (hrest : ∀ r ∈ rest, ValidRune r = true) :
    ToTitle C (c0 :: rest) = C.ToTitle c0 :: rest.map C.ToLower
      ∧ (DecodeRuneInString (c0 :: rest)).2 ≤ byteLen (c0 :: rest)
      ∧ sliceFrom (c0 :: rest) (DecodeRuneInString (c0 :: rest)).2 = rest := by
  refine ⟨?_, ?_, ?_⟩
  · have hl : ∀ c ∈ rest, ValidRune (C.ToLower c) = true :=
      fun c hc => hC.lower_valid c (hrest c hc)
    simp only [ToTitle, DecodeRuneInString, sliceFrom_first, stringsToLower]
    rw [stringsMap_eq_map _ _ hl, WriteRune_valid _ (hC.title_valid c0 h0)]
    simp
  · simp [DecodeRuneInString, byteLen]
  · simp only [DecodeRuneInString, sliceFrom_first]

/-- Witness of C12 on "ǳord", whose first code point is two bytes wide. -/
theorem ToTitle_cons_witness :
    ToTitle sampleCase (runes "ǳord") = runes "ǲord"
      ∧ sliceFrom (runes "ǳord") 2 = runes "ord" :=
  ⟨(ToTitle_cons sampleCase_lawful 0x1F3 (runes "ord") (by decide) (by decide)).1,
   (ToTitle_cons sampleCase_lawful 0x1F3 (runes "ord") (by decide) (by decide)).2.2⟩

/-! ## Digits and the mode invariant -/

theorem splitStep_mode_ne_bound {U : UnicodeTables} (h : U.Lawful) (s : splitState)
    {r : Rune} (hr : U.IsUpper r = true ∨ U.IsLower r = true ∨ U.IsTitle r = true
      ∨ U.IsDigit r = true) :
    (splitStep U s r).mode ≠ boundSplitMode := by
  obtain ⟨m, ws, c⟩ := s
  rcases h.classify r with ⟨hu, hl, ht, hd, hL⟩ | ⟨hu, hl, ht, hd, hL⟩ | ⟨hu, hl, ht, hd, hL⟩
    | ⟨hu, hl, ht, hd, hL⟩ | ⟨hu, hl, ht, hd⟩
  · cases m <;> simp [splitStep, startWord, writeWordRune, finishWord, hu, hl, ht, hd, hL]
  · cases m <;> simp [splitStep, startWord, writeWordRune, finishWord, hu, hl, ht, hd, hL]
  · cases m <;> simp [splitStep, startWord, writeWordRune, finishWord, hu, hl, ht, hd, hL]
  · cases m <;> simp [splitStep, startWord, writeWordRune, finishWord, hu, hl, ht, hd, hL]
  · simp [hu, hl, ht, hd] at hr

theorem splitStep_digit {U : UnicodeTables} (h : U.Lawful) {m : splitMode}
    (hm : m ≠ boundSplitMode) (ws : List (List Rune)) (c : List Rune) {d : Rune}
    (hd : U.IsDigit d = true) :
    splitStep U ⟨m, ws, c⟩ d = ⟨wordSplitMode, ws, c ++ [d]⟩ := by
  cases m
  · exact absurd rfl hm
  · exact splitStep_wordStart_lower_digit h ws c (Or.inr hd)
  · exact splitStep_word_lower_digit h ws c (Or.inr hd)
  · exact splitStep_acronym_digit h ws c hd

theorem splitInv_reachable {U : UnicodeTables} (h : U.Lawful) {s : splitState}
    (hs : reachable U s) : splitInv U s := by
  obtain ⟨pre, rfl⟩ := hs
  exact splitInv_loop h pre (splitInv_new U)

/-- C14: digits attach to the preceding run.  For every string `x0 ++ [l]` whose last code
point `l` is an uppercase, lowercase or title-case letter or a digit, and every digit `d`,
`SplitName (x0 ++ [l] ++ [d])` is `SplitName (x0 ++ [l])` with `d` appended to its last word:
the earlier words `ws` are the same and the last word `c` becomes `c ++ [d]`. -/
theorem SplitName_digit_attaches {U : UnicodeTables} (h : U.Lawful) (x0 : List Rune)
    (l d : Rune)
    (hl : U.IsUpper l = true ∨ U.IsLower l = true ∨ U.IsTitle l = true ∨ U.IsDigit l = true)
    (hd : U.IsDigit d = true) :
    ∃ ws c, SplitName U (x0 ++ [l]) = ws ++ [c]
      ∧ SplitName U (x0 ++ [l] ++ [d]) = ws ++ [c ++ [d]] := by
  have hinv : splitInv U (splitLoop U newSplitState (x0 ++ [l])) :=
    splitInv_loop h _ (splitInv_new U)
  have hmode : (splitLoop U newSplitState (x0 ++ [l])).mode ≠ boundSplitMode := by
    rw [splitLoop_append, splitLoop_cons, splitLoop_nil]
    exact splitStep_mode_ne_bound h _ hl
  have hloop : splitLoop U newSplitState (x0 ++ [l] ++ [d])
      = splitStep U (splitLoop U newSplitState (x0 ++ [l])) d := by
    rw [splitLoop_append, splitLoop_cons, splitLoop_nil]
  have hcur := hinv.nonempty hmode
  generalize hs : splitLoop U newSplitState (x0 ++ [l]) = s at hinv hmode hloop hcur
  obtain ⟨m, ws, c⟩ := s
  rw [splitStep_digit h hmode ws c hd] at hloop
  exact ⟨ws, c, SplitName_of_loop_word h hs hcur, SplitName_of_loop_word h hloop (by simp)⟩

/-- Witness of C14 on "AA" followed by the digit "0". -/
theorem SplitName_digit_attaches_witness :
    ∃ ws c, SplitName sampleTables (runes "A" ++ [65]) = ws ++ [c]
      ∧ SplitName sampleTables (runes "A" ++ [65] ++ [48]) = ws ++ [c ++ [48]] :=
  SplitName_digit_attaches sampleTables_lawful (runes "A") 65 48 (by decide) (by decide)

/-- C17: the mode invariant of the loop.  In every reachable state, in mode Boundary the
buffer is empty, in mode WordStart it holds exactly one uppercase rune, and in mode Acronym
it ends in two uppercase runes.  For a lowercase rune `r` the loop calls `finishWord` only in
mode Acronym; there `DecodeLastRuneInString` returns the last rune `v` of the buffer with a
width that is within the buffer, the slice `word[:len(word)-lastRuneSize]` is the non-empty
rest `p` of the buffer, and the step finishes `p` and starts the word `[v, r]`. -/
theorem reachable_mode_invariant {U : UnicodeTables} (h : U.Lawful) (s : splitState)
    (hs : reachable U s) :
    (s.mode = boundSplitMode → s.curWord = [])
      ∧ (s.mode = wordStartSplitMode → ∃ u, s.curWord = [u] ∧ U.IsUpper u = true)
      ∧ (s.mode = acronymSplitMode →
          ∃ p u v, s.curWord = p ++ [u, v] ∧ U.IsUpper u = true ∧ U.IsUpper v = true)
      ∧ ∀ r, U.IsLower r = true →
          (s.mode ≠ acronymSplitMode →
            splitStep U s r
              = if s.mode = boundSplitMode then startWord U s r else writeWordRune U s r)
          ∧ (s.mode = acronymSplitMode →
              splitStep U s r = finishWord U s r
              ∧ ∃ p v, p ≠ [] ∧ s.curWord = p ++ [v]
                  ∧ DecodeLastRuneInString s.curWord = (v, RuneLen v)
                  ∧ RuneLen v ≤ byteLen s.curWord
                  ∧ sliceTo s.curWord (byteLen s.curWord - RuneLen v) = p
                  ∧ finishWord U s r = ⟨wordSplitMode, s.words ++ [p], [v, r]⟩) := by
  have hinv := splitInv_reachable h hs
  refine ⟨hinv.bound_empty, hinv.wordStart_one, hinv.acronym_two, ?_⟩
  intro r hr
  obtain ⟨m, ws, c⟩ := s
  constructor
  · intro hm
    cases m
    · simp [splitStep, h.lower_letter r hr]
    · simp [splitStep, hr]
    · simp [splitStep, hr]
    · exact absurd rfl hm
  · intro hm
    simp only at hm
    subst hm
    obtain ⟨p, u, v, hc, hu, hv⟩ := hinv.acronym_two rfl
    simp only at hc
    subst hc
    have hstep : splitStep U ⟨acronymSplitMode, ws, p ++ [u, v]⟩ r
        = finishWord U ⟨acronymSplitMode, ws, p ++ [u, v]⟩ r := by
      simp [splitStep, h.lower_not_upper hr, h.lower_not_digit hr]
    have hcur : p ++ [u, v] = (p ++ [u]) ++ [v] := by simp
    refine ⟨hstep, p ++ [u], v, by simp, hcur, ?_, ?_, ?_, ?_⟩
    · simp [DecodeLastRuneInString]
    · rw [hcur, byteLen_append]; simp [byteLen]
    · simp only [hcur]; exact sliceTo_dropLast _ _
    · rw [← hstep, hcur]
      exact splitStep_acronym_lower h ws (p ++ [u]) (h.upper_valid hv) hr

/-- Witness of C17: after "WORDW" the state is in mode Acronym, and the lowercase "o" splits
the buffer before its last rune. -/
theorem reachable_mode_invariant_witness :
    ∃ p v, p ≠ [] ∧ (splitLoop sampleTables newSplitState (runes "WORDW")).curWord = p ++ [v]
      ∧ DecodeLastRuneInString (splitLoop sampleTables newSplitState (runes "WORDW")).curWord
          = (v, RuneLen v)
      ∧ RuneLen v ≤ byteLen (splitLoop sampleTables newSplitState (runes "WORDW")).curWord
      ∧ sliceTo (splitLoop sampleTables newSplitState (runes "WORDW")).curWord
          (byteLen (splitLoop sampleTables newSplitState (runes "WORDW")).curWord - RuneLen v)
          = p
      ∧ finishWord sampleTables (splitLoop sampleTables newSplitState (runes "WORDW")) 111
          = ⟨wordSplitMode,
              (splitLoop sampleTables newSplitState (runes "WORDW")).words ++ [p], [v, 111]⟩ :=
  (((reachable_mode_invariant sampleTables_lawful
      (splitLoop sampleTables newSplitState (runes "WORDW")) ⟨runes "WORDW", rfl⟩).2.2.2
      111 (by decide)).2 (by decide)).2

/-! ## The six kinds of step -/

/-- Every step of the loop from a state that satisfies the invariant is of one of six kinds:
a non-word rune is ignored in mode Boundary; a word rune starts a word in mode Boundary; an
uppercase or lowercase letter or a digit is written to the buffer; an uppercase letter (in
mode Word) or a title-case letter finishes the buffer and starts a new word; a lowercase
letter in mode Acronym splits the buffer before its last rune; any other rune finishes the
buffer. -/
theorem splitStep_cases {U : UnicodeTables} (h : U.Lawful) {m : splitMode}
    {ws : List (List Rune)} {c : List Rune} (hs : splitInv U ⟨m, ws, c⟩) (r : Rune) :
    (m = boundSplitMode ∧ c = [] ∧ U.IsLetter r = false ∧ U.IsDigit r = false
        ∧ splitStep U ⟨m, ws, c⟩ r = ⟨boundSplitMode, ws, []⟩)
    ∨ (m = boundSplitMode ∧ c = [] ∧ (U.IsLetter r = true ∨ U.IsDigit r = true)
        ∧ ValidRune r = true
        ∧ splitStep U ⟨m, ws, c⟩ r
            = ⟨if U.IsUpper r then wordStartSplitMode else wordSplitMode, ws, [r]⟩)
    ∨ (m ≠ boundSplitMode ∧ c ≠ []
        ∧ (U.IsUpper r = true ∨ U.IsLower r = true ∨ U.IsDigit r = true)
        ∧ (U.IsUpper r = true → m = wordStartSplitMode ∨ m = acronymSplitMode)
        ∧ (U.IsLower r = true → m ≠ acronymSplitMode)
        ∧ splitStep U ⟨m, ws, c⟩ r
            = ⟨if U.IsUpper r then acronymSplitMode else wordSplitMode, ws, c ++ [r]⟩)
    ∨ (m ≠ boundSplitMode ∧ c ≠ []
        ∧ (U.IsUpper r = true ∧ m = wordSplitMode ∨ U.IsTitle r = true)
        ∧ splitStep U ⟨m, ws, c⟩ r
            = ⟨if U.IsUpper r then wordStartSplitMode else wordSplitMode, ws ++ [c], [r]⟩)
    ∨ (m = acronymSplitMode ∧ U.IsLower r = true
        ∧ ∃ p v, p ≠ [] ∧ c = p ++ [v] ∧ U.IsUpper v = true
            ∧ splitStep U ⟨m, ws, c⟩ r = ⟨wordSplitMode, ws ++ [p], [v, r]⟩)
    ∨ (m ≠ boundSplitMode ∧ c ≠ [] ∧ U.IsUpper r = false ∧ U.IsLower r = false
        ∧ U.IsTitle r = false ∧ U.IsDigit r = false
        ∧ splitStep U ⟨m, ws, c⟩ r = ⟨boundSplitMode, ws ++ [c], []⟩) := by
  obtain ⟨hb, hn, hw1, ha2, _, _⟩ := hs
  simp only at hb hn hw1 ha2
  rcases h.classify r with ⟨hu, hl, ht, hd, hL⟩ | ⟨hu, hl, ht, hd, hL⟩ | ⟨hu, hl, ht, hd, hL⟩
    | ⟨hu, hl, ht, hd, hL⟩ | ⟨hu, hl, ht, hd⟩
  · have hv := h.letter_valid r hL
    cases m
    · have hc := hb rfl
      subst hc
      refine Or.inr (Or.inl ⟨rfl, rfl, Or.inl hL, hv, ?_⟩)
      simp [splitStep, startWord, writeWordRune, finishWord, addWord, WriteRune,
        hu, hl, ht, hd, hL, hv]
    · obtain ⟨u, hc, huu⟩ := hw1 rfl
      subst hc
      refine Or.inr (Or.inr (Or.inl ⟨by simp, by simp, Or.inl hu, fun _ => Or.inl rfl, by simp [hl], ?_⟩))
      simp [splitStep, startWord, writeWordRune, finishWord, addWord, WriteRune,
        hu, hl, ht, hd, hL, hv]
    · have hc := hn (by simp)
      have hlen : 0 < c.length := List.length_pos.mpr hc
      refine Or.inr (Or.inr (Or.inr (Or.inl ⟨by simp, hc, Or.inl ⟨hu, rfl⟩, ?_⟩)))
      simp [splitStep, startWord, writeWordRune, finishWord, addWord, WriteRune,
        hu, hl, ht, hd, hL, hv, hlen]
    · obtain ⟨p, u, v, hc, huu, huv⟩ := ha2 rfl
      subst hc
      refine Or.inr (Or.inr (Or.inl ⟨by simp, by simp, Or.inl hu, fun _ => Or.inr rfl, by simp [hl], ?_⟩))
      simp [splitStep, startWord, writeWordRune, finishWord, addWord, WriteRune,
        hu, hl, ht, hd, hL, hv]
  · have hv := h.letter_valid r hL
    cases m
    · have hc := hb rfl
      subst hc
      refine Or.inr (Or.inl ⟨rfl, rfl, Or.inl hL, hv, ?_⟩)
      simp [splitStep, startWord, writeWordRune, finishWord, addWord, WriteRune,
        hu, hl, ht, hd, hL, hv]
    · obtain ⟨u, hc, huu⟩ := hw1 rfl
      subst hc
      refine Or.inr (Or.inr (Or.inl ⟨by simp, by simp, Or.inr (Or.inl hl), by simp [hu], by simp, ?_⟩))
      simp [splitStep, startWord, writeWordRune, finishWord, addWord, WriteRune,
        hu, hl, ht, hd, hL, hv]
    · have hc := hn (by simp)
      have hlen : 0 < c.length := List.length_pos.mpr hc
      refine Or.inr (Or.inr (Or.inl ⟨by simp, hc, Or.inr (Or.inl hl), by simp [hu], by simp, ?_⟩))
      simp [splitStep, startWord, writeWordRune, finishWord, addWord, WriteRune,
        hu, hl, ht, hd, hL, hv, hlen]
    · obtain ⟨p, u, v, hc, huu, huv⟩ := ha2 rfl
      subst hc
      refine Or.inr (Or.inr (Or.inr (Or.inr (Or.inl
        ⟨rfl, hl, p ++ [u], v, by simp, by simp, huv, ?_⟩))))
      rw [show p ++ [u, v] = (p ++ [u]) ++ [v] by simp]
      exact splitStep_acronym_lower h ws (p ++ [u]) (h.upper_valid huv) hl
  · have hv := h.letter_valid r hL
    cases m
    · have hc := hb rfl
      subst hc
      refine Or.inr (Or.inl ⟨rfl, rfl, Or.inl hL, hv, ?_⟩)
      simp [splitStep, startWord, writeWordRune, finishWord, addWord, WriteRune,
        hu, hl, ht, hd, hL, hv]
    · obtain ⟨u, hc, huu⟩ := hw1 rfl
      subst hc
      refine Or.inr (Or.inr (Or.inr (Or.inl ⟨by simp, by simp, Or.inr ht, ?_⟩)))
      simp [splitStep, startWord, writeWordRune, finishWord, addWord, WriteRune,
        hu, hl, ht, hd, hL, hv]
    · have hc := hn (by simp)
      have hlen : 0 < c.length := List.length_pos.mpr hc
      refine Or.inr (Or.inr (Or.inr (Or.inl ⟨by simp, hc, Or.inr ht, ?_⟩)))
      simp [splitStep, startWord, writeWordRune, finishWord, addWord, WriteRune,
        hu, hl, ht, hd, hL, hv, hlen]
    · obtain ⟨p, u, v, hc, huu, huv⟩ := ha2 rfl
      subst hc
      refine Or.inr (Or.inr (Or.inr (Or.inl ⟨by simp, by simp, Or.inr ht, ?_⟩)))
      simp [splitStep, startWord, writeWordRune, finishWord, addWord, WriteRune,
        hu, hl, ht, hd, hL, hv]
  · have hv := h.digit_valid r hd
    cases m
    · have hc := hb rfl
      subst hc
      refine Or.inr (Or.inl ⟨rfl, rfl, Or.inr hd, hv, ?_⟩)
      simp [splitStep, startWord, writeWordRune, finishWord, addWord, WriteRune,
        hu, hl, ht, hd, hL, hv]
    · obtain ⟨u, hc, huu⟩ := hw1 rfl
      subst hc
      refine Or.inr (Or.inr (Or.inl ⟨by simp, by simp, Or.inr (Or.inr hd), by simp [hu], by simp [hl], ?_⟩))
      simp [splitStep, startWord, writeWordRune, finishWord, addWord, WriteRune,
        hu, hl, ht, hd, hL, hv]
    · have hc := hn (by simp)
      have hlen : 0 < c.length := List.length_pos.mpr hc
      refine Or.inr (Or.inr (Or.inl ⟨by simp, hc, Or.inr (Or.inr hd), by simp [hu], by simp [hl], ?_⟩))
      simp [splitStep, startWord, writeWordRune, finishWord, addWord, WriteRune,
        hu, hl, ht, hd, hL, hv, hlen]
    · obtain ⟨p, u, v, hc, huu, huv⟩ := ha2 rfl
      subst hc
      refine Or.inr (Or.inr (Or.inl ⟨by simp, by simp, Or.inr (Or.inr hd), by simp [hu], by simp [hl], ?_⟩))
      simp [splitStep, startWord, writeWordRune, finishWord, addWord, WriteRune,
        hu, hl, ht, hd, hL, hv]
  · cases m
    · have hc := hb rfl
      subst hc
      rcases Bool.eq_false_or_eq_true (U.IsLetter r) with hL | hL
      · have hv := h.letter_valid r hL
        refine Or.inr (Or.inl ⟨rfl, rfl, Or.inl hL, hv, ?_⟩)
        simp [splitStep, startWord, WriteRune, hu, hL, hv]
      · exact Or.inl ⟨rfl, rfl, hL, hd, by simp [splitStep, hL, hd]⟩
    · obtain ⟨u, hc, huu⟩ := hw1 rfl
      subst hc
      refine Or.inr (Or.inr (Or.inr (Or.inr (Or.inr (⟨by simp, by simp, hu, hl, ht, hd, ?_⟩)))))
      simp [splitStep, startWord, writeWordRune, finishWord, addWord, WriteRune,
        hu, hl, ht, hd]
    · have hc := hn (by simp)
      have hlen : 0 < c.length := List.length_pos.mpr hc
      refine Or.inr (Or.inr (Or.inr (Or.inr (Or.inr (⟨by simp, hc, hu, hl, ht, hd, ?_⟩)))))
      simp [splitStep, startWord, writeWordRune, finishWord, addWord, WriteRune,
        hu, hl, ht, hd, hlen]
    · obtain ⟨p, u, v, hc, huu, huv⟩ := ha2 rfl
      subst hc
      refine Or.inr (Or.inr (Or.inr (Or.inr (Or.inr (⟨by simp, by simp, hu, hl, ht, hd, ?_⟩)))))
      simp [splitStep, startWord, writeWordRune, finishWord, addWord, WriteRune,
        hu, hl, ht, hd]

/-! ## Which runes are kept -/

theorem content_step {U : UnicodeTables} (h : U.Lawful) {s : splitState}
    (hs : splitInv U s) (r : Rune) :
    content (splitStep U s r) = content s ++ (if kept U s.mode r then [r] else []) := by
  obtain ⟨m, ws, c⟩ := s
  rcases splitStep_cases h hs r with ⟨hm, hc, hL, hd, heq⟩ | ⟨hm, hc, hw, _, heq⟩
    | ⟨hm, hc, hw, _, _, heq⟩ | ⟨hm, hc, hw, heq⟩ | ⟨hm, hl, p, v, hp, hc, hv, heq⟩
    | ⟨hm, hc, hu, hl, ht, hd, heq⟩
  · subst hm hc
    simp [heq, content, kept, hL, hd]
  · subst hm hc
    have hk : kept U boundSplitMode r = true := by
      rcases hw with hw | hw <;> simp [kept, hw]
    simp [heq, content, hk]
  · have hk : kept U m r = true := by
      rcases hw with hw | hw | hw
      · simp [kept, hw, h.upper_letter r hw]
      · simp [kept, hw, h.lower_letter r hw]
      · simp [kept, hw]
    simp [heq, content, hk]
  · have hk : kept U m r = true := by
      rcases hw with ⟨hw, _⟩ | hw
      · simp [kept, hw, h.upper_letter r hw]
      · simp [kept, hw, h.title_letter r hw]
    simp [heq, content, hk]
  · have hk : kept U m r = true := by
      simp [kept, hl, h.lower_letter r hl]
    subst hc
    simp [heq, content, hk]
  · have hk : kept U m r = false := by
      simp [kept, hm, hu, hl, ht, hd]
    simp [heq, content, hk]

theorem content_loop {U : UnicodeTables} (h : U.Lawful) (name : List Rune) {s : splitState}
    (hs : splitInv U s) :
    content (splitLoop U s name) = content s ++ keptRunes U s name := by
  induction name generalizing s with
  | nil => simp [splitLoop_nil, keptRunes]
  | cons r name ih =>
    rw [splitLoop_cons, ih (splitInv_step h hs r), content_step h hs, keptRunes]
    simp

theorem SplitName_flatten {U : UnicodeTables} (h : U.Lawful) (name : List Rune) :
    (SplitName U name).flatten = keptRunes U newSplitState name := by
  have hcontent := content_loop h name (splitInv_new U)
  rw [SplitName_eq_splitName h, splitName]
  generalize splitLoop U newSplitState name = s at hcontent
  obtain ⟨m, ws, c⟩ := s
  simp only [content, newSplitState, List.flatten_nil, List.nil_append] at hcontent
  rw [finishWord_neg_one_words h, newSplitState, ← hcontent]
  by_cases hc : c = []
  · by_cases hws : ws = []
    · simp [hc, hws]
    · simp [hc, hws]
  · simp [hc]

theorem keptRunes_eq_wordRunes (U : UnicodeTables) (name : List Rune) (s : splitState)
    (hname : ∀ r ∈ name, U.IsLetter r = true →
      U.IsUpper r = true ∨ U.IsLower r = true ∨ U.IsTitle r = true) :
    keptRunes U s name = wordRunes U name := by
  induction name generalizing s with
  | nil => simp [keptRunes, wordRunes]
  | cons r name ih =>
    have hr := hname r (List.mem_cons_self _ _)
    have hk : kept U s.mode r = (U.IsLetter r || U.IsDigit r) := by
      rcases Bool.eq_false_or_eq_true (U.IsLetter r) with hL | hL
      · rcases hr hL with hc | hc | hc <;> simp [kept, hL, hc]
      · rcases Bool.eq_false_or_eq_true (U.IsDigit r) with hd | hd <;> simp [kept, hL, hd]
    have ih1 := ih (splitStep U s r) (fun x hx => hname x (List.mem_cons_of_mem _ hx))
    simp only [wordRunes] at ih1
    simp only [keptRunes, hk, ih1, wordRunes, List.filter_cons]
    split_ifs <;> simp

theorem keptRunes_mem (U : UnicodeTables) (name : List Rune) (s : splitState) :
    ∀ r ∈ keptRunes U s name, r ∈ name := by
  induction name generalizing s with
  | nil => simp [keptRunes]
  | cons x name ih =>
    intro r hr
    simp only [keptRunes, List.mem_append] at hr
    rcases hr with hr | hr
    · split_ifs at hr
      · simp at hr; simp [hr]
      · cases hr
    · exact List.mem_cons_of_mem _ (ih _ r hr)

/-- C18: when every letter of the input is uppercase, lowercase or title-case, the words
returned by `SplitName`, concatenated in order, are the input without the code points that
are neither letter nor digit.  In general the concatenation consists of the runes that the
loop keeps, and the only word runes that are not kept are letters without case that arrive
in a mode other than Boundary, that is, while a word is being accumulated. -/
theorem SplitName_flatten_cased {U : UnicodeTables} (h : U.Lawful) (name : List Rune) :
    ((∀ r ∈ name, U.IsLetter r = true →
        U.IsUpper r = true ∨ U.IsLower r = true ∨ U.IsTitle r = true) →
      (SplitName U name).flatten = wordRunes U name)
    ∧ (SplitName U name).flatten = keptRunes U newSplitState name
    ∧ ∀ (m : splitMode) (r : Rune), (U.IsLetter r = true ∨ U.IsDigit r = true) →
        kept U m r = false →
        m ≠ boundSplitMode ∧ U.IsLetter r = true ∧ U.IsUpper r = false
          ∧ U.IsLower r = false ∧ U.IsTitle r = false := by
  refine ⟨?_, SplitName_flatten h name, ?_⟩
  · intro hname
    rw [SplitName_flatten h, keptRunes_eq_wordRunes U name _ hname]
  · intro m r hw hk
    rcases hw with hL | hd
    · simp [kept, hL] at hk
      exact ⟨hk.1.1.1.1, hL, hk.1.1.1.2, hk.1.1.2, hk.1.2⟩
    · simp [kept, hd] at hk

/-- Witness of C18 on "_aB1-ǲc", which has no letter without case. -/
theorem SplitName_flatten_cased_witness :
    (SplitName sampleTables (runes "_aB1-ǲc")).flatten
      = wordRunes sampleTables (runes "_aB1-ǲc") :=
  (SplitName_flatten_cased sampleTables_lawful (runes "_aB1-ǲc")).1 (by decide)

/-! ## Title-case letters -/

theorem titleInv_new (U : UnicodeTables) : titleInv U [] newSplitState := by
  constructor <;> simp [newSplitState]

theorem titleInv_of_push {U : UnicodeTables} {pre : List Rune} {m m1 : splitMode}
    {ws : List (List Rune)} {c c1 : List Rune} (ht : titleInv U pre ⟨m, ws, c⟩) (r : Rune)
    (htail : ∀ x ∈ c1.tail, U.IsTitle x = false)
    (hhead : U.IsTitle r = true → c1.head? = some r) :
    titleInv U (pre ++ [r]) ⟨m1, ws ++ [c], c1⟩ := by
  constructor
  · intro w hw x hx
    simp only [List.mem_append, List.mem_singleton] at hw
    rcases hw with (hw | hw) | hw
    · exact ht.tails w (by simp [hw]) x hx
    · exact ht.tails w (by simp [hw]) x hx
    · subst hw; exact htail x hx
  · intro x hx hxt
    simp only [List.mem_append, List.mem_singleton] at hx
    rcases hx with hx | hx
    · obtain ⟨w, hw, hwh⟩ := ht.heads x hx hxt
      exact ⟨w, by simp only [List.mem_append, List.mem_singleton] at hw ⊢; tauto, hwh⟩
    · subst hx
      exact ⟨c1, by simp, hhead hxt⟩

theorem titleInv_step {U : UnicodeTables} (h : U.Lawful) {pre : List Rune} {s : splitState}
    (hs : splitInv U s) (ht : titleInv U pre s) (r : Rune) :
    titleInv U (pre ++ [r]) (splitStep U s r) := by
  obtain ⟨m, ws, c⟩ := s
  rcases splitStep_cases h hs r with ⟨hm, hc, hL, hd, heq⟩ | ⟨hm, hc, hw, _, heq⟩
    | ⟨hm, hc, hw, _, _, heq⟩ | ⟨hm, hc, hw, heq⟩ | ⟨hm, hl, p, v, hp, hc, hv, heq⟩
    | ⟨hm, hc, hu, hl, htt, hd, heq⟩
  · rw [heq]
    subst hm hc
    constructor
    · exact ht.tails
    · intro x hx hxt
      simp only [List.mem_append, List.mem_singleton] at hx
      rcases hx with hx | hx
      · exact ht.heads x hx hxt
      · subst hx
        rw [h.title_letter x hxt] at hL
        cases hL
  · rw [heq]
    subst hm hc
    constructor
    · intro w hw x hx
      simp only [List.mem_append, List.mem_singleton] at hw
      rcases hw with hw | hw
      · exact ht.tails w (by simp [hw]) x hx
      · subst hw; simp at hx
    · intro x hx hxt
      simp only [List.mem_append, List.mem_singleton] at hx
      rcases hx with hx | hx
      · obtain ⟨w, hw, hwh⟩ := ht.heads x hx hxt
        simp only [List.mem_append, List.mem_singleton] at hw
        rcases hw with hw | hw
        · exact ⟨w, by simp [hw], hwh⟩
        · subst hw; simp at hwh
      · subst hx
        exact ⟨[x], by simp, rfl⟩
  · rw [heq]
    have hnt : U.IsTitle r = false := by
      rcases hw with hw | hw | hw
      · exact h.upper_not_title r hw
      · exact h.lower_not_title r hw
      · exact h.not_title_of_not_letter (h.digit_not_letter r hw)
    constructor
    · intro w hw1 x hx
      simp only [List.mem_append, List.mem_singleton] at hw1
      rcases hw1 with hw1 | hw1
      · exact ht.tails w (by simp [hw1]) x hx
      · subst hw1
        rw [List.tail_append_of_ne_nil hc] at hx
        simp only [List.mem_append, List.mem_singleton] at hx
        rcases hx with hx | hx
        · exact ht.tails c (by simp) x hx
        · subst hx; exact hnt
    · intro x hx hxt
      simp only [List.mem_append, List.mem_singleton] at hx
      rcases hx with hx | hx
      · obtain ⟨w, hw1, hwh⟩ := ht.heads x hx hxt
        simp only [List.mem_append, List.mem_singleton] at hw1
        rcases hw1 with hw1 | hw1
        · exact ⟨w, by simp [hw1], hwh⟩
        · subst hw1
          exact ⟨w ++ [r], by simp, by rw [List.head?_append_of_ne_nil _ hc]; exact hwh⟩
      · subst hx
        rw [hnt] at hxt; cases hxt
  · rw [heq]
    exact titleInv_of_push ht r (by simp) (fun _ => rfl)
  · rw [heq]
    subst hc
    have hnt : U.IsTitle r = false := h.lower_not_title r hl
    have hvt : U.IsTitle v = false := h.upper_not_title v hv
    constructor
    · intro w hw1 x hx
      simp only [List.mem_append, List.mem_singleton] at hw1
      rcases hw1 with (hw1 | hw1) | hw1
      · exact ht.tails w (by simp [hw1]) x hx
      · subst hw1
        exact ht.tails (w ++ [v]) (by simp) x
          (by rw [List.tail_append_of_ne_nil hp]; simp [hx])
      · subst hw1
        simp only [List.tail_cons, List.mem_singleton] at hx
        subst hx; exact hnt
    · intro x hx hxt
      simp only [List.mem_append, List.mem_singleton] at hx
      rcases hx with hx | hx
      · obtain ⟨w, hw1, hwh⟩ := ht.heads x hx hxt
        simp only [List.mem_append, List.mem_singleton] at hw1
        rcases hw1 with hw1 | hw1
        · exact ⟨w, by simp [hw1], hwh⟩
        · subst hw1
          rw [List.head?_append_of_ne_nil _ hp] at hwh
          exact ⟨p, by simp, hwh⟩
      · subst hx
        rw [hnt] at hxt; cases hxt
  · rw [heq]
    exact titleInv_of_push ht r (by simp) (fun hxt => by rw [htt] at hxt; cases hxt)

theorem titleInv_loop {U : UnicodeTables} (h : U.Lawful) (name : List Rune) {pre : List Rune}
    {s : splitState} (hs : splitInv U s) (ht : titleInv U pre s) :
    titleInv U (pre ++ name) (splitLoop U s name) := by
  induction name generalizing pre s with
  | nil => simpa [splitLoop_nil] using ht
  | cons r name ih =>
    have := ih (splitInv_step h hs r) (titleInv_step h hs ht r)
    simpa [splitLoop_cons] using this

/-- C16: a title-case letter always starts a fresh word.  No word returned by `SplitName` has
a title-case letter after its first code point, and every title-case letter of the input is
the first code point of some returned word. -/
theorem SplitName_title_starts_word {U : UnicodeTables} (h : U.Lawful) (name : List Rune) :
    (∀ w ∈ SplitName U name, ∀ r ∈ w.tail, U.IsTitle r = false)
      ∧ ∀ r ∈ name, U.IsTitle r = true → ∃ w ∈ SplitName U name, w.head? = some r := by
  have ht := titleInv_loop h name (splitInv_new U) (titleInv_new U)
  rw [List.nil_append] at ht
  rw [SplitName_eq_splitName h, splitName]
  generalize splitLoop U newSplitState name = s at ht
  obtain ⟨m, ws, c⟩ := s
  rw [finishWord_neg_one_words h]
  have hsub : ∀ w, w ≠ [] → w ∈ ws ++ [c] → w ∈ (if c = [] then ws else ws ++ [c]) := by
    intro w hne hw
    by_cases hc : c = []
    · simp only [hc, if_true]
      simp only [List.mem_append, List.mem_singleton] at hw
      rcases hw with hw | hw
      · exact hw
      · exact absurd (hw.trans hc) hne
    · simpa [hc] using hw
  have hsup : ∀ w, w ∈ (if c = [] then ws else ws ++ [c]) → w ∈ ws ++ [c] := by
    intro w hw
    by_cases hc : c = []
    · simp only [hc, if_true] at hw; simp [hw]
    · simpa [hc] using hw
  generalize (if c = [] then ws else ws ++ [c]) = res at hsub hsup
  constructor
  · intro w hw x hx
    by_cases hnil : res = []
    · rw [if_pos hnil] at hw
      rw [List.mem_singleton.mp hw] at hx; cases hx
    · rw [if_neg hnil] at hw
      exact ht.tails w (hsup w hw) x hx
  · intro r hr hrt
    obtain ⟨w, hw, hwh⟩ := ht.heads r hr hrt
    have hne : w ≠ [] := by
      intro h0; rw [h0] at hwh; cases hwh
    have hmem := hsub w hne hw
    have hnn : res ≠ [] := List.ne_nil_of_mem hmem
    rw [if_neg hnn]
    exact ⟨w, hmem, hwh⟩

/-- Witness of C16 on "AAǲ": the title-case letter `ǲ` starts a word of the result. -/
theorem SplitName_title_starts_word_witness :
    ∃ w ∈ SplitName sampleTables (runes "AAǲ"), w.head? = some 0x1F2 :=
  (SplitName_title_starts_word sampleTables_lawful (runes "AAǲ")).2 0x1F2
    (by decide) (by decide)

/-! ## Replaying words -/

/-- The finished words are only ever extended: a step from a state with words `ws` is the
step from the state without words, with `ws` put in front. -/
theorem splitStep_words (U : UnicodeTables) (m : splitMode) (ws : List (List Rune))
    (c : List Rune) (r : Rune) :
    splitStep U ⟨m, ws, c⟩ r
      = ⟨(splitStep U ⟨m, [], c⟩ r).mode, ws ++ (splitStep U ⟨m, [], c⟩ r).words,
          (splitStep U ⟨m, [], c⟩ r).curWord⟩ := by
  cases m <;>
    simp only [splitStep, startWord, writeWordRune, finishWord, addWord] <;>
    split_ifs <;> simp

theorem splitLoop_words (U : UnicodeTables) (l : List Rune) (m : splitMode)
    (ws : List (List Rune)) (c : List Rune) :
    splitLoop U ⟨m, ws, c⟩ l
      = ⟨(splitLoop U ⟨m, [], c⟩ l).mode, ws ++ (splitLoop U ⟨m, [], c⟩ l).words,
          (splitLoop U ⟨m, [], c⟩ l).curWord⟩ := by
  induction l generalizing m ws c with
  | nil => simp [splitLoop_nil]
  | cons r l ih =>
    rw [splitLoop_cons, splitLoop_cons, splitStep_words U m ws c r, ih]
    generalize splitStep U ⟨m, [], c⟩ r = s1
    obtain ⟨m1, ws1, c1⟩ := s1
    simp only
    rw [ih m1 ws1 c1]
    simp

theorem splitStep_drop_words {U : UnicodeTables} {m m1 : splitMode} {ws extra : List (List Rune)}
    {c c1 : List Rune} {r : Rune}
    (heq : splitStep U ⟨m, ws, c⟩ r = ⟨m1, ws ++ extra, c1⟩) :
    splitStep U ⟨m, [], c⟩ r = ⟨m1, extra, c1⟩ := by
  rw [splitStep_words] at heq
  generalize splitStep U ⟨m, [], c⟩ r = s1 at heq
  obtain ⟨m2, ws2, c2⟩ := s1
  simp only [splitState.mk.injEq, List.append_cancel_left_eq] at heq
  obtain ⟨h1, h2, h3⟩ := heq
  subst h1 h2 h3
  rfl

theorem stableWord_loop {U : UnicodeTables} {w : List Rune} (hw : stableWord U w)
    (acc : List (List Rune)) :
    ∃ m, m ≠ boundSplitMode ∧ splitLoop U ⟨boundSplitMode, acc, []⟩ w = ⟨m, acc, w⟩ := by
  obtain ⟨_, m, hm, hloop⟩ := hw
  refine ⟨m, hm, ?_⟩
  rw [splitLoop_words]
  rw [newSplitState] at hloop
  rw [hloop]
  simp

theorem splitStep_new_start {U : UnicodeTables} (h : U.Lawful) {r : Rune}
    (hr : U.IsLetter r = true ∨ U.IsDigit r = true) :
    splitLoop U newSplitState [r]
      = ⟨if U.IsUpper r then wordStartSplitMode else wordSplitMode, [], [r]⟩ := by
  rw [splitLoop_cons, splitLoop_nil, newSplitState]
  rcases splitStep_cases h (splitInv_new U) r with ⟨_, _, hL, hd, _⟩ | ⟨_, _, _, _, heq⟩
    | ⟨hm, _⟩ | ⟨hm, _⟩ | ⟨hm, _⟩ | ⟨hm, _⟩
  · rcases hr with hr | hr
    · rw [hr] at hL; cases hL
    · rw [hr] at hd; cases hd
  · exact heq
  · exact absurd rfl hm
  · exact absurd rfl hm
  · cases hm
  · exact absurd rfl hm

theorem stableWord_upper_run {U : UnicodeTables} (h : U.Lawful) {A : List Rune}
    (hne : A ≠ []) (hA : ∀ r ∈ A, U.IsUpper r = true) : stableWord U A := by
  refine ⟨hne, ?_⟩
  match A, hne, hA with
  | [a], _, hA =>
    exact ⟨wordStartSplitMode, by simp, by
      rw [splitLoop_cons, splitLoop_nil, newSplitState,
        splitStep_bound_upper h _ _ (hA a (by simp))]
      simp⟩
  | a :: b :: A1, _, hA =>
    exact ⟨acronymSplitMode, by simp, by
      rw [splitLoop_cons, newSplitState, splitStep_bound_upper h _ _ (hA a (by simp)),
        splitLoop_cons, splitStep_wordStart_upper h _ _ (hA b (by simp)),
        splitLoop_acronym h _ _ _ (fun r hr => hA r (by simp [hr]))]
      simp⟩

theorem replayInv_new (U : UnicodeTables) : replayInv U newSplitState := by
  constructor <;> simp [newSplitState]

theorem replayInv_push {U : UnicodeTables} {m m1 : splitMode} {ws : List (List Rune)}
    {c c1 : List Rune} (hr : replayInv U ⟨m, ws, c⟩) (hm : m ≠ boundSplitMode) (hc : c ≠ [])
    (hcur : c1 ≠ [] → splitLoop U newSplitState c1 = ⟨m1, [], c1⟩)
    (hacr : m1 = acronymSplitMode → ∀ x ∈ c1, U.IsUpper x = true) :
    replayInv U ⟨m1, ws ++ [c], c1⟩ := by
  constructor
  · intro w hw
    simp only [List.mem_append, List.mem_singleton] at hw
    rcases hw with hw | hw
    · exact hr.words w hw
    · subst hw
      exact ⟨hc, m, hm, hr.cur hc⟩
  · exact hcur
  · exact hacr

theorem startMode_ne_acronym (b : Bool) :
    (if b = true then wordStartSplitMode else wordSplitMode) ≠ acronymSplitMode := by
  cases b <;> simp

theorem replayInv_step {U : UnicodeTables} (h : U.Lawful) {s : splitState}
    (hs : splitInv U s) (hr : replayInv U s) (r : Rune) : replayInv U (splitStep U s r) := by
  obtain ⟨m, ws, c⟩ := s
  rcases splitStep_cases h hs r with ⟨hm, hc, hL, hd, heq⟩ | ⟨hm, hc, hw, _, heq⟩
    | ⟨hm, hc, hw, hmode, _, heq⟩ | ⟨hm, hc, hw, heq⟩ | ⟨hm, hl, p, v, hp, hc, hv, heq⟩
    | ⟨hm, hc, hu, hl, htt, hd, heq⟩
  · rw [heq]
    subst hm hc
    exact ⟨hr.words, by simp, by simp⟩
  · rw [heq]
    exact ⟨hr.words, fun _ => splitStep_new_start h hw,
      fun h1 => absurd h1 (startMode_ne_acronym _)⟩
  · rw [heq]
    refine ⟨hr.words, fun _ => ?_, ?_⟩
    · have hcur := hr.cur hc
      simp only at hcur
      rw [splitLoop_append, hcur, splitLoop_cons, splitLoop_nil]
      have heq1 : splitStep U ⟨m, ws, c⟩ r
          = ⟨if U.IsUpper r then acronymSplitMode else wordSplitMode, ws ++ [], c ++ [r]⟩ := by
        rw [heq]; simp
      exact splitStep_drop_words heq1
    · intro h1 x hx
      simp only at h1
      rcases Bool.eq_false_or_eq_true (U.IsUpper r) with hur | hur
      · simp only [List.mem_append, List.mem_singleton] at hx
        rcases hx with hx | hx
        · rcases hmode hur with hmm | hmm
          · obtain ⟨u, hcu, huu⟩ := hs.wordStart_one hmm
            simp only at hcu
            rw [hcu] at hx
            rw [List.mem_singleton.mp hx]; exact huu
          · exact hr.acronym hmm x hx
        · rw [hx]; exact hur
      · rw [hur] at h1
        simp at h1
  · rw [heq]
    have hLr : U.IsLetter r = true := by
      rcases hw with ⟨hw, _⟩ | hw
      · exact h.upper_letter r hw
      · exact h.title_letter r hw
    exact replayInv_push hr hm hc (fun _ => splitStep_new_start h (Or.inl hLr))
      (fun h1 => absurd h1 (startMode_ne_acronym _))
  · rw [heq]
    subst hm hc
    have hpu : ∀ x ∈ p, U.IsUpper x = true := fun x hx => hr.acronym rfl x (by simp [hx])
    constructor
    · intro w hw
      simp only [List.mem_append, List.mem_singleton] at hw
      rcases hw with hw | hw
      · exact hr.words w hw
      · subst hw
        exact stableWord_upper_run h hp hpu
    · intro _
      rw [splitLoop_cons, newSplitState, splitStep_bound_upper h _ _ hv, splitLoop_cons,
        splitStep_wordStart_lower_digit h _ _ (Or.inl hl), splitLoop_nil]
      simp
    · intro h1; cases h1
  · rw [heq]
    exact replayInv_push hr hm hc (fun h0 => absurd rfl h0) (fun h1 => by cases h1)

theorem replayInv_loop {U : UnicodeTables} (h : U.Lawful) (name : List Rune) {s : splitState}
    (hs : splitInv U s) (hr : replayInv U s) : replayInv U (splitLoop U s name) := by
  induction name generalizing s with
  | nil => exact hr
  | cons r name ih => exact ih (splitInv_step h hs r) (replayInv_step h hs hr r)

/-- Every word that the state machine returns is stable. -/
theorem splitName_stable {U : UnicodeTables} (h : U.Lawful) (name : List Rune) :
    ∀ w ∈ splitName U newSplitState name, stableWord U w := by
  have hinv := splitInv_loop h name (splitInv_new U)
  have hrep := replayInv_loop h name (splitInv_new U) (replayInv_new U)
  rw [splitName]
  generalize splitLoop U newSplitState name = s at hinv hrep
  obtain ⟨m, ws, c⟩ := s
  rw [finishWord_neg_one_words h]
  intro w hw
  by_cases hc : c = []
  · rw [if_pos hc] at hw
    exact hrep.words w hw
  · rw [if_neg hc] at hw
    simp only [List.mem_append, List.mem_singleton] at hw
    rcases hw with hw | hw
    · exact hrep.words w hw
    · subst hw
      have hm : m ≠ boundSplitMode := fun hm => hc (hinv.bound_empty hm)
      exact ⟨hc, m, hm, hrep.cur hc⟩

theorem SplitName_stableWord {U : UnicodeTables} (h : U.Lawful) {w : List Rune}
    (hw : stableWord U w) : SplitName U w = [w] := by
  obtain ⟨hne, m, _, hloop⟩ := hw
  rw [SplitName_of_loop_word h hloop hne]
  simp

theorem splitStep_other {U : UnicodeTables} (h : U.Lawful) {m : splitMode}
    (hm : m ≠ boundSplitMode) (ws : List (List Rune)) {c : List Rune} (hc : c ≠ [])
    {r : Rune} (hl : U.IsLetter r = false) (hd : U.IsDigit r = false) :
    splitStep U ⟨m, ws, c⟩ r = ⟨boundSplitMode, ws ++ [c], []⟩ := by
  cases m
  · exact absurd rfl hm
  all_goals
    simp [splitStep, h.not_upper_of_not_letter hl, h.not_lower_of_not_letter hl, hd,
      finishWord_other h _ _ hc hl]

theorem splitLoop_join_stable {U : UnicodeTables} (h : U.Lawful) {x : Rune}
    (hxl : U.IsLetter x = false) (hxd : U.IsDigit x = false) (W : List (List Rune))
    (hne : W ≠ []) (hW : ∀ w ∈ W, stableWord U w) (acc : List (List Rune)) :
    ∃ m ws c, splitLoop U ⟨boundSplitMode, acc, []⟩ (stringsJoin W [x]) = ⟨m, ws, c⟩
      ∧ c ≠ [] ∧ ws ++ [c] = acc ++ W := by
  induction W generalizing acc with
  | nil => exact absurd rfl hne
  | cons w rest ih =>
    have hw := hW w (by simp)
    obtain ⟨m, hm, hloop⟩ := stableWord_loop hw acc
    cases rest with
    | nil => exact ⟨m, acc, w, by simpa [stringsJoin] using hloop, hw.1, rfl⟩
    | cons w1 rest =>
      obtain ⟨m1, ws1, c1, hloop1, hc1, heq1⟩ :=
        ih (by simp) (fun y hy => hW y (by simp [hy])) (acc ++ [w])
      refine ⟨m1, ws1, c1, ?_, hc1, by rw [heq1]; simp⟩
      rw [stringsJoin, splitLoop_append, splitLoop_append, hloop, splitLoop_cons,
        splitLoop_nil, splitStep_other h hm acc hw.1 hxl hxd, hloop1]

/-- Joining stable words with a rune that is neither letter nor digit and splitting again
gives the words back. -/
theorem SplitName_join_stable {U : UnicodeTables} (h : U.Lawful) {x : Rune}
    (hxl : U.IsLetter x = false) (hxd : U.IsDigit x = false) (W : List (List Rune))
    (hne : W ≠ []) (hW : ∀ w ∈ W, stableWord U w) :
    SplitName U (stringsJoin W [x]) = W := by
  obtain ⟨m, ws, c, hloop, hc, heq⟩ := splitLoop_join_stable h hxl hxd W hne hW []
  rw [SplitName_of_loop_word h hloop hc, heq]
  simp

/-- C19: tokenization is a fixed point on its own output.  Every word `w` of `SplitName s`
satisfies `SplitName w = [w]`, and `SplitName` of the words of `SplitName s` joined with "_"
is `SplitName s`. -/
theorem SplitName_fixed_point {U : UnicodeTables} (h : U.Lawful)
    (hsep : U.IsLetter 95 = false ∧ U.IsDigit 95 = false) (name : List Rune) :
    (∀ w ∈ SplitName U name, SplitName U w = [w])
      ∧ SplitName U (stringsJoin (SplitName U name) (runes "_")) = SplitName U name := by
  have hrunes : runes "_" = [95] := by decide
  have hstable := splitName_stable h name
  rw [SplitName_eq_splitName h name]
  by_cases hnil : splitName U newSplitState name = []
  · simp only [hnil, if_true]
    constructor
    · intro w hw
      rw [List.mem_singleton.mp hw]
      simp [SplitName]
    · simp [stringsJoin, SplitName]
  · simp only [hnil, if_false]
    constructor
    · intro w hw
      exact SplitName_stableWord h (hstable w hw)
    · rw [hrunes]
      exact SplitName_join_stable h hsep.1 hsep.2 _ hnil hstable

/-- Witness of C19 on "PKCS1v15DecryptOptions". -/
theorem SplitName_fixed_point_witness :
    SplitName sampleTables
        (stringsJoin (SplitName sampleTables (runes "PKCS1v15DecryptOptions")) (runes "_"))
      = SplitName sampleTables (runes "PKCS1v15DecryptOptions") :=
  (SplitName_fixed_point sampleTables_lawful (by decide)
    (runes "PKCS1v15DecryptOptions")).2

/-! ## Presets on ASCII input -/

theorem SplitName_cons (U : UnicodeTables) (name : List Rune) :
    ∃ w0 ws, SplitName U name = w0 :: ws := by
  have hne : SplitName U name ≠ [] := by
    simp only [SplitName]
    by_cases h1 : name = []
    · simp [h1]
    · by_cases h2 : name.length = 1
      · by_cases h3 : (U.IsLetter (DecodeRuneInString name).1
            || U.IsDigit (DecodeRuneInString name).1) = true
        · simp [h1, h2, h3]
        · simp [h1, h2, h3]
      · by_cases h3 : splitName U newSplitState name = []
        · simp [h1, h2, h3]
        · simp [h1, h2, h3]
  cases hsplit : SplitName U name with
  | nil => exact absurd hsplit hne
  | cons w0 ws => exact ⟨w0, ws, rfl⟩

theorem stringsJoin_cons (w0 : List Rune) (ws : List (List Rune)) (sep : List Rune) :
    stringsJoin (w0 :: ws) sep = w0 ++ (ws.map (fun w => sep ++ w)).flatten := by
  induction ws generalizing w0 with
  | nil => simp [stringsJoin]
  | cons w1 ws ih => rw [stringsJoin, ih]; simp

theorem stringsJoin_nil_sep (W : List (List Rune)) : stringsJoin W [] = W.flatten := by
  cases W with
  | nil => rfl
  | cons w0 ws => rw [stringsJoin_cons]; simp

/-- A convention with the same rule `f` for all words joins the mapped words. -/
theorem CreateNaming_same (U : UnicodeTables) (f : List Rune → List Rune) (sep : List Rune)
    (name : List Rune) :
    CreateNaming U f f sep name = some (stringsJoin ((SplitName U name).map f) sep) := by
  obtain ⟨w0, ws, hsplit⟩ := SplitName_cons U name
  simp only [CreateNaming, hsplit, List.map_cons]
  rw [foldl_write_eq, stringsJoin_cons]
  simp only [List.map_map]
  rfl

/-- The runes of the returned words are letters or digits of the input. -/
theorem SplitName_runes {U : UnicodeTables} (h : U.Lawful) (name : List Rune) :
    ∀ w ∈ SplitName U name, ∀ r ∈ w,
      r ∈ name ∧ (U.IsLetter r = true ∨ U.IsDigit r = true) := by
  intro w hw r hr
  constructor
  · apply keptRunes_mem U name newSplitState
    rw [← SplitName_flatten h]
    exact List.mem_flatten.mpr ⟨w, hw, hr⟩
  · rw [SplitName_eq_splitName h] at hw
    split_ifs at hw with hnil
    · rw [List.mem_singleton.mp hw] at hr; cases hr
    · exact (splitName_wordsOk h name w hw).2 r hr

theorem SplitName_empty_or_words {U : UnicodeTables} (h : U.Lawful) (name : List Rune) :
    SplitName U name = [[]] ∨ ∀ w ∈ SplitName U name, w ≠ [] := by
  rw [SplitName_eq_splitName h]
  by_cases hnil : splitName U newSplitState name = []
  · exact Or.inl (by simp [hnil])
  · right
    intro w hw
    rw [if_neg hnil] at hw
    exact (splitName_wordsOk h name w hw).1

theorem ascii_valid {r : Int} (h0 : 0 ≤ r) (h1 : r < 128) : ValidRune r = true := by
  simp only [ValidRune, Bool.or_eq_true, Bool.and_eq_true, decide_eq_true_eq]
  omega

theorem ascii_word_rune {U : UnicodeTables} (hU : U.ASCII) {r : Int} (h0 : 0 ≤ r)
    (h1 : r < 128) (hw : U.IsLetter r = true ∨ U.IsDigit r = true) :
    (65 ≤ r ∧ r ≤ 90) ∨ (97 ≤ r ∧ r ≤ 122) ∨ (48 ≤ r ∧ r ≤ 57) := by
  rcases hw with hw | hw
  · rw [hU.letter r h0 h1] at hw
    simp only [Bool.or_eq_true, Bool.and_eq_true, decide_eq_true_eq] at hw
    omega
  · rw [hU.digit r h0 h1] at hw
    simp only [Bool.and_eq_true, decide_eq_true_eq] at hw
    omega

/-- On ASCII letters and digits `unicode.ToLower` yields an ASCII lowercase letter or digit,
which it leaves unchanged. -/
theorem ascii_lower_image {U : UnicodeTables} {C : CaseTables} (hU : U.ASCII) (hC : C.ASCII)
    {r : Int} (h0 : 0 ≤ r) (h1 : r < 128) (hw : U.IsLetter r = true ∨ U.IsDigit r = true) :
    (0 : Int) ≤ C.ToLower r ∧ C.ToLower r < 128
      ∧ (U.IsLower (C.ToLower r) = true ∨ U.IsDigit (C.ToLower r) = true)
      ∧ C.ToLower (C.ToLower r) = C.ToLower r := by
  have hrange := ascii_word_rune hU h0 h1 hw
  have himg : C.ToLower r = if 65 ≤ r ∧ r ≤ 90 then r + 32 else r := hC.lower r h0 h1
  obtain ⟨q, hqe⟩ : ∃ q : Int, C.ToLower r = q := ⟨_, rfl⟩
  rw [hqe] at himg ⊢
  have hq : (0 : Int) ≤ q ∧ q < 128 ∧ ((97 ≤ q ∧ q ≤ 122) ∨ (48 ≤ q ∧ q ≤ 57)) := by
    rw [himg]; split_ifs <;> omega
  refine ⟨hq.1, hq.2.1, ?_, ?_⟩
  · rcases hq.2.2 with hr | hr
    · left
      rw [hU.lower q hq.1 hq.2.1]
      simp only [Bool.and_eq_true, decide_eq_true_eq]; omega
    · right
      rw [hU.digit q hq.1 hq.2.1]
      simp only [Bool.and_eq_true, decide_eq_true_eq]; omega
  · rw [hC.lower q hq.1 hq.2.1]
    have : ¬ (65 ≤ q ∧ q ≤ 90) := by omega
    rw [if_neg this]

/-- On ASCII letters and digits `unicode.ToUpper` yields an ASCII uppercase letter or digit,
which it leaves unchanged. -/
theorem ascii_upper_image {U : UnicodeTables} {C : CaseTables} (hU : U.ASCII) (hC : C.ASCII)
    {r : Int} (h0 : 0 ≤ r) (h1 : r < 128) (hw : U.IsLetter r = true ∨ U.IsDigit r = true) :
    (0 : Int) ≤ C.ToUpper r ∧ C.ToUpper r < 128
      ∧ (U.IsUpper (C.ToUpper r) = true ∨ U.IsDigit (C.ToUpper r) = true)
      ∧ C.ToUpper (C.ToUpper r) = C.ToUpper r := by
  have hrange := ascii_word_rune hU h0 h1 hw
  have himg : C.ToUpper r = if 97 ≤ r ∧ r ≤ 122 then r - 32 else r := hC.upper r h0 h1
  obtain ⟨q, hqe⟩ : ∃ q : Int, C.ToUpper r = q := ⟨_, rfl⟩
  rw [hqe] at himg ⊢
  have hq : (0 : Int) ≤ q ∧ q < 128 ∧ ((65 ≤ q ∧ q ≤ 90) ∨ (48 ≤ q ∧ q ≤ 57)) := by
    rw [himg]; split_ifs <;> omega
  refine ⟨hq.1, hq.2.1, ?_, ?_⟩
  · rcases hq.2.2 with hr | hr
    · left
      rw [hU.upper q hq.1 hq.2.1]
      simp only [Bool.and_eq_true, decide_eq_true_eq]; omega
    · right
      rw [hU.digit q hq.1 hq.2.1]
      simp only [Bool.and_eq_true, decide_eq_true_eq]; omega
  · rw [hC.upper q hq.1 hq.2.1]
    have : ¬ (97 ≤ q ∧ q ≤ 122) := by omega
    rw [if_neg this]

theorem ascii_letter_cased {U : UnicodeTables} (hU : U.ASCII) {r : Int} (h0 : 0 ≤ r)
    (h1 : r < 128) (hL : U.IsLetter r = true) :
    U.IsUpper r = true ∨ U.IsLower r = true ∨ U.IsTitle r = true := by
  rw [hU.letter r h0 h1] at hL
  rw [hU.upper r h0 h1, hU.lower r h0 h1]
  simp only [Bool.or_eq_true] at hL
  rcases hL with hL | hL
  · exact Or.inl hL
  · exact Or.inr (Or.inl hL)

/-- On a word whose images under `g` are ASCII and fixed by `g`, `strings.Map` is the
rune-wise map, and mapping twice is mapping once. -/
theorem stringsMap_ascii (g : Int → Int) (w : List Rune)
    (hg : ∀ r : Int, r ∈ w → 0 ≤ g r ∧ g r < 128 ∧ g (g r) = g r) :
    stringsMap g w = w.map g ∧ stringsMap g (stringsMap g w) = stringsMap g w := by
  have h1 : stringsMap g w = w.map g :=
    stringsMap_eq_map g w (fun c hc => ascii_valid (hg c hc).1 (hg c hc).2.1)
  refine ⟨h1, ?_⟩
  rw [h1, stringsMap_eq_map g (w.map g)]
  · rw [List.map_map]
    exact List.map_congr_left (fun r hr => (hg r hr).2.2)
  · intro c hc
    obtain ⟨r, hr, rfl⟩ := List.mem_map.mp hc
    rw [(hg r hr).2.2]
    exact ascii_valid (hg r hr).1 (hg r hr).2.1

theorem stableWord_lower_run {U : UnicodeTables} (h : U.Lawful) {w : List Rune}
    (hne : w ≠ []) (hw : ∀ r ∈ w, U.IsLower r = true ∨ U.IsDigit r = true) :
    stableWord U w :=
  ⟨hne, wordSplitMode, by simp, by rw [newSplitState]; exact splitLoop_bound_word h [] hne hw⟩

/-- A convention that maps every word to lower case and joins with one rune that is neither
letter nor digit returns, on ASCII input, a string that it leaves unchanged. -/
theorem lowerJoin_idem {U : UnicodeTables} {C : CaseTables} (h : U.Lawful) (hU : U.ASCII)
    (hC : C.ASCII) {x : Rune} (hxl : U.IsLetter x = false) (hxd : U.IsDigit x = false)
    (name : List Rune) (hname : isASCII name) :
    ∃ t, CreateNaming U (stringsToLower C) (stringsToLower C) [x] name = some t
      ∧ CreateNaming U (stringsToLower C) (stringsToLower C) [x] t = some t := by
  refine ⟨_, CreateNaming_same U _ _ name, ?_⟩
  rw [CreateNaming_same]
  rcases SplitName_empty_or_words h name with hW | hW
  · have e1 : stringsJoin ([[]].map (stringsToLower C)) [x] = [] := by
      simp [stringsJoin, stringsToLower, stringsMap]
    have e2 : SplitName U [] = [[]] := by simp [SplitName]
    rw [hW, e1, e2, e1]
  · have hruns := SplitName_runes h name
    have himg : ∀ w ∈ SplitName U name, ∀ r : Int, r ∈ w →
        0 ≤ C.ToLower r ∧ C.ToLower r < 128 ∧ C.ToLower (C.ToLower r) = C.ToLower r := by
      intro w hw r hr
      have hr1 := hruns w hw r hr
      have hr2 := hname r hr1.1
      have := ascii_lower_image hU hC hr2.1 hr2.2 hr1.2
      exact ⟨this.1, this.2.1, this.2.2.2⟩
    have hstable : ∀ lw ∈ (SplitName U name).map (stringsToLower C), stableWord U lw := by
      intro lw hlw
      obtain ⟨w, hw, rfl⟩ := List.mem_map.mp hlw
      have hmap : stringsToLower C w = w.map C.ToLower := (stringsMap_ascii _ w (himg w hw)).1
      rw [hmap]
      apply stableWord_lower_run h
      · simpa using hW w hw
      · intro q hq
        obtain ⟨r, hr, rfl⟩ := List.mem_map.mp hq
        have hr1 := hruns w hw r hr
        have hr2 := hname r hr1.1
        exact (ascii_lower_image hU hC hr2.1 hr2.2 hr1.2).2.2.1
    have hne : (SplitName U name).map (stringsToLower C) ≠ [] := by
      obtain ⟨w0, ws, hsplit⟩ := SplitName_cons U name
      simp [hsplit]
    rw [SplitName_join_stable h hxl hxd _ hne hstable, List.map_map]
    congr 2
    apply List.map_congr_left
    intro w hw
    exact (stringsMap_ascii _ w (himg w hw)).2

/-- A convention that maps every word rune-wise by `g` and joins without separator returns,
on ASCII input, a string that it leaves unchanged, provided that `g` sends ASCII letters and
digits to ASCII letters and digits that it fixes. -/
theorem flatJoin_idem {U : UnicodeTables} (h : U.Lawful) (hU : U.ASCII) (g : Int → Int)
    (hg : ∀ r : Int, 0 ≤ r → r < 128 → (U.IsLetter r = true ∨ U.IsDigit r = true) →
      (0 ≤ g r ∧ g r < 128) ∧ (U.IsLetter (g r) = true ∨ U.IsDigit (g r) = true)
        ∧ g (g r) = g r)
    (name : List Rune) (hname : isASCII name) :
    ∃ t, CreateNaming U (stringsMap g) (stringsMap g) [] name = some t
      ∧ CreateNaming U (stringsMap g) (stringsMap g) [] t = some t := by
  refine ⟨_, CreateNaming_same U _ _ name, ?_⟩
  rw [CreateNaming_same, stringsJoin_nil_sep, stringsJoin_nil_sep]
  have hruns := SplitName_runes h name
  -- the first pass maps the kept runes of the input
  have hfirst : ((SplitName U name).map (stringsMap g)).flatten
      = ((SplitName U name).flatten).map g := by
    rw [List.map_flatten]
    congr 1
    apply List.map_congr_left
    intro w hw
    apply stringsMap_eq_map
    intro r hr
    have hr1 := hruns w hw r hr
    have hr2 := hname r hr1.1
    exact ascii_valid (hg r hr2.1 hr2.2 hr1.2).1.1 (hg r hr2.1 hr2.2 hr1.2).1.2
  have ht : ∀ q : Int, q ∈ ((SplitName U name).map (stringsMap g)).flatten →
      (0 ≤ q ∧ q < 128) ∧ (U.IsLetter q = true ∨ U.IsDigit q = true) ∧ g q = q := by
    intro q hq
    rw [hfirst] at hq
    obtain ⟨r, hr, rfl⟩ := List.mem_map.mp hq
    obtain ⟨w, hw, hrw⟩ := List.mem_flatten.mp hr
    have hr1 := hruns w hw r hrw
    have hr2 := hname r hr1.1
    exact hg r hr2.1 hr2.2 hr1.2
  generalize ((SplitName U name).map (stringsMap g)).flatten = t at ht
  -- the second pass keeps every rune of `t` and maps it to itself
  have hflat : (SplitName U t).flatten = t := by
    rw [SplitName_flatten h, keptRunes_eq_wordRunes U t _
      (fun r hr hL => ascii_letter_cased hU (ht r hr).1.1 (ht r hr).1.2 hL), wordRunes]
    apply List.filter_eq_self.mpr
    intro r hr
    rcases (ht r hr).2.1 with hL | hD
    · simp [hL]
    · simp [hD]
  have hruns2 := SplitName_runes h t
  have hsecond : (SplitName U t).map (stringsMap g) = SplitName U t := by
    conv_rhs => rw [← List.map_id (SplitName U t)]
    apply List.map_congr_left
    intro w hw
    have hmap : stringsMap g w = w.map g := by
      apply stringsMap_eq_map
      intro r hr
      have hrt := (hruns2 w hw r hr).1
      rw [(ht r hrt).2.2]
      exact ascii_valid (ht r hrt).1.1 (ht r hrt).1.2
    rw [hmap, id]
    conv_rhs => rw [← List.map_id w]
    apply List.map_congr_left
    intro r hr
    exact (ht r (hruns2 w hw r hr).1).2.2
  rw [hsecond, hflat]

theorem ascii_separators {U : UnicodeTables} (hU : U.ASCII) :
    (U.IsLetter 95 = false ∧ U.IsDigit 95 = false)
      ∧ (U.IsLetter 45 = false ∧ U.IsDigit 45 = false) := by
  refine ⟨⟨?_, ?_⟩, ?_, ?_⟩
  · rw [hU.letter 95 (by decide) (by decide)]; decide
  · rw [hU.digit 95 (by decide) (by decide)]; decide
  · rw [hU.letter 45 (by decide) (by decide)]; decide
  · rw [hU.digit 45 (by decide) (by decide)]; decide

theorem lower_rule_ascii {U : UnicodeTables} {C : CaseTables} (h : U.Lawful) (hU : U.ASCII)
    (hC : C.ASCII) (r : Int) (h0 : 0 ≤ r) (h1 : r < 128)
    (hw : U.IsLetter r = true ∨ U.IsDigit r = true) :
    (0 ≤ C.ToLower r ∧ C.ToLower r < 128)
      ∧ (U.IsLetter (C.ToLower r) = true ∨ U.IsDigit (C.ToLower r) = true)
      ∧ C.ToLower (C.ToLower r) = C.ToLower r := by
  obtain ⟨ha, hb, hc, hd⟩ := ascii_lower_image hU hC h0 h1 hw
  refine ⟨⟨ha, hb⟩, ?_, hd⟩
  rcases hc with hc | hc
  · exact Or.inl (h.lower_letter _ hc)
  · exact Or.inr hc

theorem upper_rule_ascii {U : UnicodeTables} {C : CaseTables} (h : U.Lawful) (hU : U.ASCII)
    (hC : C.ASCII) (r : Int) (h0 : 0 ≤ r) (h1 : r < 128)
    (hw : U.IsLetter r = true ∨ U.IsDigit r = true) :
    (0 ≤ C.ToUpper r ∧ C.ToUpper r < 128)
      ∧ (U.IsLetter (C.ToUpper r) = true ∨ U.IsDigit (C.ToUpper r) = true)
      ∧ C.ToUpper (C.ToUpper r) = C.ToUpper r := by
  obtain ⟨ha, hb, hc, hd⟩ := ascii_upper_image hU hC h0 h1 hw
  refine ⟨⟨ha, hb⟩, ?_, hd⟩
  rcases hc with hc | hc
  · exact Or.inl (h.upper_letter _ hc)
  · exact Or.inr hc

theorem bind_of_fixed {f : List Rune → Option (List Rune)} {name : List Rune}
    (hf : ∃ t, f name = some t ∧ f t = some t) : (f name).bind f = f name := by
  obtain ⟨t, h1, h2⟩ := hf
  rw [h1, Option.some_bind, h2]

/-- C20: for every string `s` of ASCII characters, `Snake (Snake s) = Snake s`. -/
theorem Snake_idempotent_ascii {U : UnicodeTables} {C : CaseTables} (h : U.Lawful)
    (hU : U.ASCII) (hC : C.ASCII) (s : List Rune) (hs : isASCII s) :
    (Snake U C s).bind (Snake U C) = Snake U C s := by
  have hsep : runes "_" = [95] := by decide
  apply bind_of_fixed
  simp only [Snake, hsep]
  exact lowerJoin_idem h hU hC (ascii_separators hU).1.1 (ascii_separators hU).1.2 s hs

/-- Witness of C20 on "_ONThe bank,". -/
theorem Snake_idempotent_ascii_witness :
    (Snake sampleTables sampleCase (runes "_ONThe bank,")).bind (Snake sampleTables sampleCase)
      = Snake sampleTables sampleCase (runes "_ONThe bank,") :=
  Snake_idempotent_ascii sampleTables_lawful sampleTables_ascii sampleCase_ascii
    (runes "_ONThe bank,") (by unfold isASCII; decide)

/-- C11, as stated, fails.  The convention with the identity as both rules and the separator
"X" is not idempotent on "a_b" (`"aXb"`, then `"aXXb"`), and neither are the presets `Mixed`
on "a_b_c" (`"aBC"`, then `"aBc"`), `UpperMixed` on "a_b" (`"AB"`, then `"Ab"`) and
`UpperSnake` on "a1b" (`"A1B"`, then `"A1_B"`). -/
theorem naming_not_idempotent :
    (CreateNaming sampleTables id id (runes "X") (runes "a_b")).bind
        (CreateNaming sampleTables id id (runes "X"))
      ≠ CreateNaming sampleTables id id (runes "X") (runes "a_b")
    ∧ (Mixed sampleTables sampleCase (runes "a_b_c")).bind (Mixed sampleTables sampleCase)
      ≠ Mixed sampleTables sampleCase (runes "a_b_c")
    ∧ (UpperMixed sampleTables sampleCase (runes "a_b")).bind
        (UpperMixed sampleTables sampleCase)
      ≠ UpperMixed sampleTables sampleCase (runes "a_b")
    ∧ (UpperSnake sampleTables sampleCase (runes "a1b")).bind
        (UpperSnake sampleTables sampleCase)
      ≠ UpperSnake sampleTables sampleCase (runes "a1b") := by
  decide

/-- C11, amended: for every string `s` of ASCII characters the presets `Flat`, `Upper`,
`Snake` and `Kebab` are idempotent. -/
theorem presets_idempotent_ascii {U : UnicodeTables} {C : CaseTables} (h : U.Lawful)
    (hU : U.ASCII) (hC : C.ASCII) (s : List Rune) (hs : isASCII s) :
    (Flat U C s).bind (Flat U C) = Flat U C s
      ∧ (Upper U C s).bind (Upper U C) = Upper U C s
      ∧ (Snake U C s).bind (Snake U C) = Snake U C s
      ∧ (Kebab U C s).bind (Kebab U C) = Kebab U C s := by
  have hsnake : runes "_" = [95] := by decide
  have hkebab : runes "-" = [45] := by decide
  refine ⟨?_, ?_, ?_, ?_⟩
  · apply bind_of_fixed
    exact flatJoin_idem h hU C.ToLower (lower_rule_ascii h hU hC) s hs
  · apply bind_of_fixed
    exact flatJoin_idem h hU C.ToUpper (upper_rule_ascii h hU hC) s hs
  · apply bind_of_fixed
    simp only [Snake, hsnake]
    exact lowerJoin_idem h hU hC (ascii_separators hU).1.1 (ascii_separators hU).1.2 s hs
  · apply bind_of_fixed
    simp only [Kebab, hkebab]
    exact lowerJoin_idem h hU hC (ascii_separators hU).2.1 (ascii_separators hU).2.2 s hs

/-- Witness of the amended C11 on "tired-OF sitting". -/
theorem presets_idempotent_ascii_witness :
    (Flat sampleTables sampleCase (runes "tired-OF sitting")).bind
        (Flat sampleTables sampleCase)
      = Flat sampleTables sampleCase (runes "tired-OF sitting")
    ∧ (Upper sampleTables sampleCase (runes "tired-OF sitting")).bind
        (Upper sampleTables sampleCase)
      = Upper sampleTables sampleCase (runes "tired-OF sitting")
    ∧ (Snake sampleTables sampleCase (runes "tired-OF sitting")).bind
        (Snake sampleTables sampleCase)
      = Snake sampleTables sampleCase (runes "tired-OF sitting")
    ∧ (Kebab sampleTables sampleCase (runes "tired-OF sitting")).bind
        (Kebab sampleTables sampleCase)
      = Kebab sampleTables sampleCase (runes "tired-OF sitting") :=
  presets_idempotent_ascii sampleTables_lawful sampleTables_ascii sampleCase_ascii
    (runes "tired-OF sitting") (by unfold isASCII; decide)

end Naming
